import Mathlib

/-!
# hawtgo `sh`: command-line construction and variable expansion

A shallow embedding of `sh/sh.go` (package `sh` of chirino/hawtgo) together with
the parts of the Go standard library (`os.Expand`) and of the sibling package
`sh/line` that `sh.go` calls.

Conventions of the embedding:

* a Go `string` is a `List Char`; every element stands for one byte.  All the
  code below only ever compares bytes against ASCII characters, so the
  embedding is exact for arbitrary byte strings;
* a Go `map[string]string` is an association list read with `List.lookup`;
  a `nil` map is `none` where the code tests for it (`Sh.env`);
* a call that can panic returns `Except GoString α`, the error being the
  message of the panic;
* the process environment read by `os.LookupEnv` is an explicit parameter.
-/

namespace Hawtgo

/-- Go `string`. -/
abbrev GoString := List Char

/-- Go `map[string]string` (lookups only). -/
abbrev GoMap := List (GoString × GoString)

deriving instance DecidableEq for Except

/-- Outcome of `Expander.Expand`: the returned pair `(value, ok)`, or a panic. -/
abbrev Lookup := Except GoString (GoString × Bool)

/-! ## Expanders (`sh.go`, lines 40-129) -/

/-- The implementations of the `Expander` interface: the six of `sh.go` and,
since the interface is open, any other implementation given by its `Expand`
method. -/
inductive Expander where
  | notFound
  | expandDisabled
  | expandEnv
  | expandPanic
  | expandMap (m : GoMap)
  | expanders (next : List Expander)
  | custom (f : GoString → Lookup)

/-- `ExpandNotFound()`. -/
def ExpandNotFound : Expander := .notFound

/-- `ExpandDisabled()`. -/
def ExpandDisabled : Expander := .expandDisabled

/-- `ExpandEnv()`. -/
def ExpandEnv : Expander := .expandEnv

/-- `ExpandPanic()`. -/
def ExpandPanic : Expander := .expandPanic

/-- `ExpandMap(m)`. -/
def ExpandMap (m : GoMap) : Expander := .expandMap m

/-- `ChainExpanders(v...)`. -/
def ChainExpanders (v : List Expander) : Expander := .expanders v

/-- The message of `fmt.Errorf("can not find value to expand '${%s}'", key)`. -/
def panicMessage (key : GoString) : GoString :=
  "can not find value to expand '$\x7b".toList ++ key ++ "\x7d'".toList

/-- `m[key]` in its two-valued form `v, ok := m[key]`. -/
def mapIndex (m : GoMap) (key : GoString) : GoString × Bool :=
  match m.lookup key with
  | some v => (v, true)
  | none => ([], false)

mutual
/-- The method `Expand` of each implementation; `osenv` is the process
environment consulted by `os.LookupEnv`. -/
def Expander.Expand (osenv : GoMap) : Expander → GoString → Lookup
  | .notFound, _ => .ok ([], false)
  | .expandDisabled, key => .ok ('$' :: '{' :: key ++ ['}'], true)
  | .expandEnv, key => .ok (mapIndex osenv key)
  | .expandPanic, key => .error (panicMessage key)
  | .expandMap m, key => .ok (mapIndex m key)
  | .expanders next, key => expandersExpand osenv next key
  | .custom f, key => f key
/-- The loop of `expanders.Expand`: the first expander that reports `ok` wins. -/
def expandersExpand (osenv : GoMap) : List Expander → GoString → Lookup
  | [], _ => .ok ([], false)
  | f :: rest, key =>
    match Expander.Expand osenv f key with
    | .error msg => .error msg
    | .ok (v, true) => .ok (v, true)
    | .ok (_, false) => expandersExpand osenv rest key
end

/-- The contract of the `Expander` interface on an outcome of `Expand`
(`sh.go`, lines 42-46): "otherwise the returned value will be empty and the
boolean will be false". -/
def honoursContract (r : Lookup) : Prop := ∀ w, r = .ok (w, false) → w = []

/-! ## `os.Expand` (Go standard library, `os/env.go`)

The library function that `Expand` calls, as it stands since Go 1.11: a dollar
sign that no name follows is left untouched, and the characters of a
malformed braced reference are eaten. -/

/-- `isShellSpecialVar`: the one-character shell variables. -/
def isShellSpecialVar (c : Char) : Bool :=
  c ∈ ['*', '#', '$', '@', '!', '?', '-', '0', '1', '2', '3', '4', '5', '6', '7', '8', '9']

/-- `isAlphaNum`: ASCII letters, digits and underscore. -/
def isAlphaNum (c : Char) : Bool :=
  c == '_' || ('0' ≤ c && c ≤ '9') || ('a' ≤ c && c ≤ 'z') || ('A' ≤ c && c ≤ 'Z')

/-- The test `len(s) > 2 && isShellSpecialVar(s[1]) && s[2] == '}'` of
`getShellName`, on `body = s[1:]`. -/
def isBracedSpecial (body : GoString) : Bool :=
  match body with
  | c1 :: c2 :: _ => isShellSpecialVar c1 && c2 == '}'
  | _ => false

/-- The loop of `getShellName` that scans to the closing brace, on
`body = s[1:]`: the first closing brace is at index `i = name.length + 1` of `s`. -/
def scanToBrace (body : GoString) : GoString × Nat :=
  let name := body.takeWhile (· != '}')
  if name.length < body.length then
    if name.isEmpty then ([], 2) else (name, name.length + 2)
  else ([], 1)

/-- `getShellName(s)`: the name that starts `s` and the number of bytes it
takes.  `os.Expand` calls it on a non-empty `s` only. -/
def getShellName (s : GoString) : GoString × Nat :=
  match s with
  | [] => ([], 0)
  | c :: body =>
    if c == '{' then
      if isBracedSpecial body then (body.take 1, 3) else scanToBrace body
    else if isShellSpecialVar c then ([c], 1)
    else (s.takeWhile isAlphaNum, (s.takeWhile isAlphaNum).length)

/-- The scanning loop of `os.Expand`, on the input that is left; the result is
what is appended to the output.  `fuel` bounds the number of iterations; the
length of the input suffices. -/
def osExpandLoop (mapping : GoString → Except GoString GoString) :
    Nat → GoString → Except GoString GoString
  | 0, s => .ok s
  | _ + 1, [] => .ok []
  | fuel + 1, c :: rest =>
    if c == '$' && !rest.isEmpty then
      let nw := getShellName rest
      if nw.1.isEmpty && 0 < nw.2 then
        osExpandLoop mapping fuel (rest.drop nw.2)
      else if nw.1.isEmpty then
        (osExpandLoop mapping fuel (rest.drop nw.2)).map (c :: ·)
      else
        match mapping nw.1 with
        | .error msg => .error msg
        | .ok v => (osExpandLoop mapping fuel (rest.drop nw.2)).map (v ++ ·)
    else
      (osExpandLoop mapping fuel rest).map (c :: ·)

/-- `os.Expand(s, mapping)`, for a mapping that may panic. -/
def osExpand (s : GoString) (mapping : GoString → Except GoString GoString) :
    Except GoString GoString :=
  osExpandLoop mapping s.length s

/-- The closure that `Expand` and `Arg.Expand` hand to `os.Expand`: the value
when the lookup reports `ok`, the empty string otherwise. -/
def valueOrEmpty (lookup : GoString → Lookup) (v : GoString) : Except GoString GoString :=
  match lookup v with
  | .error msg => .error msg
  | .ok (v, true) => .ok v
  | .ok (_, false) => .ok []

/-- `Expand(value, expander)` (`sh.go`, lines 50-58). -/
def Expand (osenv : GoMap) (value : GoString) (expander : Expander) : Except GoString GoString :=
  osExpand value (valueOrEmpty (expander.Expand osenv))

/-! ## Package `sh/line`

`sh.go` and the tests fix the shape of the types (`line.ArgPart{value, true}`,
`append(arg, ...)`, `[]line.Arg`) and the signatures of `Parse`, `Arg.String`
and `Arg.Expand`; the bodies are not part of the sources at hand. -/

/-- A segment `line.ArgPart{value, expand}`: a text and whether variable
references in it are to be resolved. -/
structure ArgPart where
  Value : GoString
  Expand : Bool
  deriving DecidableEq, Repr

/-- An argument `line.Arg`: a slice of segments. -/
abbrev Arg := List ArgPart

/-- Modelled from the spec: the body of `Arg.String` of package `line` is
missing.  "When expansion is disabled, every Segment's original literal text
(including quote-stripped content) is emitted verbatim": the texts of the
segments, concatenated in order with no separator. -/
def Arg.String (arg : Arg) : GoString :=
  (arg.map (·.Value)).flatten

/-- Modelled from the spec: the body of `Arg.Expand` of package `line` is
missing.  "For each Segment: if `expandable=false`, append its text unchanged;
if `expandable=true`, scan the text for variable reference syntax and replace
each reference by the resolver's value if found, or by the empty string if
not found.  Concatenate all Segment texts in order."  The scan is the fixed
grammar of `Expand`, that is `os.Expand`; a panic of the resolver propagates. -/
def Arg.Expand (lookup : GoString → Lookup) : Arg → Except GoString GoString
  | [] => .ok []
  | part :: rest =>
    match (if part.Expand then osExpand part.Value (valueOrEmpty lookup) else .ok part.Value) with
    | .error msg => .error msg
    | .ok v => (Arg.Expand lookup rest).map (v ++ ·)

/-- The quoting state of the tokenizer: `{none, single, double}`. -/
inductive Quoting where
  | none
  | single
  | double
  deriving DecidableEq, Repr

/-- Unquoted whitespace: space, tab, CR, LF. -/
def isWhitespace (c : Char) : Bool :=
  c == ' ' || c == '\t' || c == '\r' || c == '\n'

/-- Modelled from the spec: flushing the pending unquoted text (if any) into
the current Argument as an `expandable=true` Segment. -/
def flushSegment (arg : Arg) (text : GoString) : Arg :=
  if text.isEmpty then arg else arg ++ [⟨text, true⟩]

/-- Modelled from the spec: "if the current Argument is non-empty, terminates
the current Argument (flush into the Line)". -/
def flushArgument (line : List Arg) (arg : Arg) : List Arg :=
  if arg.isEmpty then line else line ++ [arg]

/-- Modelled from the spec: the scan of `line.Parse` (section 4.1), whose body
is missing.  The state is the quoting state, the Line so far, the Argument
under construction, the text of the current Segment, and the input left.
* unquoted whitespace flushes the pending text and then the Argument;
* an opening quote flushes the pending text and starts a new Segment;
* inside double quotes, backslash + double quote contributes a double quote;
* a closing quote flushes the quoted Segment with its expandability
  (`false` for single, `true` for double) and does not end the Argument;
* at the end of input an open quote is closed, and the pending Segment and
  Argument are flushed. -/
def parseLoop : Quoting → List Arg → Arg → GoString → GoString → List Arg
  | .none, line, arg, text, [] => flushArgument line (flushSegment arg text)
  | .single, line, arg, text, [] => line ++ [arg ++ [⟨text, false⟩]]
  | .double, line, arg, text, [] => line ++ [arg ++ [⟨text, true⟩]]
  | .none, line, arg, text, c :: rest =>
    if isWhitespace c then
      parseLoop .none (flushArgument line (flushSegment arg text)) [] [] rest
    else if c == '\'' then parseLoop .single line (flushSegment arg text) [] rest
    else if c == '"' then parseLoop .double line (flushSegment arg text) [] rest
    else parseLoop .none line arg (text ++ [c]) rest
  | .single, line, arg, text, c :: rest =>
    if c == '\'' then parseLoop .none line (arg ++ [⟨text, false⟩]) [] rest
    else parseLoop .single line arg (text ++ [c]) rest
  | .double, line, arg, text, [c] =>
    if c == '"' then parseLoop .none line (arg ++ [⟨text, true⟩]) [] []
    else parseLoop .double line arg (text ++ [c]) []
  | .double, line, arg, text, c :: c2 :: rest =>
    if c == '"' then parseLoop .none line (arg ++ [⟨text, true⟩]) [] (c2 :: rest)
    else if c == '\\' && c2 == '"' then parseLoop .double line arg (text ++ ['"']) rest
    else parseLoop .double line arg (text ++ [c]) (c2 :: rest)

/-- Modelled from the spec: `line.Parse(raw)`, the scan started in the state
with no quote open and nothing pending. -/
def Parse (raw : GoString) : List Arg :=
  parseLoop .none [] [] [] raw

/-! ## Raw lines, as written

The vocabulary in which the properties of `Parse` are stated: a raw line is
a sequence of tokens separated by whitespace, a token a sequence of adjacent
fragments, each unquoted, single-quoted or double-quoted. -/

/-- A quote character. -/
def isQuote (c : Char) : Bool :=
  c == '\'' || c == '"'

/-- A fragment of a token, by its content. -/
inductive Fragment where
  | unquoted (text : GoString)
  | single (text : GoString)
  | double (text : GoString)
  deriving DecidableEq, Repr

/-- The characters that write the fragment in the raw line. -/
def Fragment.raw : Fragment → GoString
  | .unquoted t => t
  | .single t => '\'' :: t ++ ['\'']
  | .double t => '"' :: t ++ ['"']

/-- The Segment a fragment stands for: its content, expandable unless the
fragment is single-quoted. -/
def Fragment.part : Fragment → ArgPart
  | .unquoted t => ⟨t, true⟩
  | .single t => ⟨t, false⟩
  | .double t => ⟨t, true⟩

/-- Whether the fragment is unquoted. -/
def Fragment.isUnquoted : Fragment → Bool
  | .unquoted _ => true
  | _ => false

/-- The fragment is written as `raw` says: an unquoted fragment is a non-empty
run of characters that are neither whitespace nor quotes; a single-quoted
content holds no single quote; a double-quoted content holds no double quote
and does not end in a backslash (which would escape the closing quote). -/
def Fragment.wellWritten : Fragment → Bool
  | .unquoted t => !t.isEmpty && t.all (fun c => !isWhitespace c && !isQuote c)
  | .single t => t.all (· != '\'')
  | .double t => t.all (· != '"') && t.getLast? != some '\\'

/-- A token: adjacent fragments, with no unquoted whitespace between them. -/
abbrev Token := List Fragment

/-- The characters that write the token. -/
def Token.raw (tok : Token) : GoString :=
  (tok.map Fragment.raw).flatten

/-- The Argument a token stands for: the Segments of its fragments, in order. -/
def Token.arg (tok : Token) : Arg :=
  tok.map Fragment.part

/-- Every fragment is well written and no two unquoted fragments are adjacent
(they would be one fragment). -/
def fragmentsWellWritten : List Fragment → Bool
  | [] => true
  | [f] => f.wellWritten
  | f :: g :: rest =>
    f.wellWritten && !(f.isUnquoted && g.isUnquoted) && fragmentsWellWritten (g :: rest)

/-- A well-written token has at least one fragment. -/
def Token.wellWritten (tok : Token) : Bool :=
  !tok.isEmpty && fragmentsWellWritten tok

/-- The characters of a line of tokens, each followed by its separator. -/
def rawLine (items : List (Token × GoString)) : GoString :=
  (items.map (fun item => item.1.raw ++ item.2)).flatten

/-- The tokens are well written and separated by whitespace: every separator is
a run of whitespace, non-empty but possibly after the last token. -/
def lineWellWritten : List (Token × GoString) → Bool
  | [] => true
  | [item] => item.1.wellWritten && item.2.all isWhitespace
  | item :: next :: rest =>
    item.1.wellWritten && !item.2.isEmpty && item.2.all isWhitespace
      && lineWellWritten (next :: rest)

/-- The input left is at the end of a token: nothing, or whitespace first. -/
def atTokenEnd : GoString → Bool
  | [] => true
  | c :: _ => isWhitespace c

/-- The input left ends an unquoted fragment: nothing, or whitespace or a quote
first. -/
def atFragmentEnd : GoString → Bool
  | [] => true
  | c :: _ => isWhitespace c || isQuote c

/-- The maximal runs of non-whitespace characters of `s`, in order. -/
def fields (s : GoString) : List GoString :=
  (s.splitOnP isWhitespace).filter (fun run => !run.isEmpty)

/-! ## The `Sh` builder (`sh.go`, lines 137-270) -/

/-- An `io.Writer`, known by its identity only. -/
abbrev Writer := Nat

/-- The struct `Sh`.  A `nil` map and a `nil` writer are `none`. -/
structure Sh where
  args : List Arg
  expanders : Expander
  env : Option GoMap
  dir : GoString
  commandLog : Option Writer
  commandLogPrefix : GoString

/-- `New()`: every field zero but `expanders`, which is `ExpandEnv()`. -/
def New : Sh :=
  { args := [], expanders := ExpandEnv, env := none, dir := [],
    commandLog := none, commandLogPrefix := [] }

/-- `Sh.Line`: the copy `sh` of `*this` with `sh.args = line.Parse(commandLine)`. -/
def Sh.Line (this : Sh) (commandLine : GoString) : Sh :=
  { this with args := Parse commandLine }

/-- `Sh.LineArgs`: the copy of `*this` whose `args[i]` is the one-element
`line.Arg` holding `line.ArgPart{value, true}`. -/
def Sh.LineArgs (this : Sh) (commandLine : List GoString) : Sh :=
  { this with args := commandLine.map (fun value => [⟨value, true⟩]) }

/-- `Sh.Expand`: the copy of `*this` with `sh.expanders = expander`. -/
def Sh.Expand (this : Sh) (expander : Expander) : Sh :=
  { this with expanders := expander }

/-- `Sh.Env`: the copy of `*this` with `sh.env = env`. -/
def Sh.Env (this : Sh) (env : Option GoMap) : Sh :=
  { this with env := env }

/-- `Sh.Dir`: the copy of `*this` with `sh.dir = dir`. -/
def Sh.Dir (this : Sh) (dir : GoString) : Sh :=
  { this with dir := dir }

/-- `Sh.CommandLog`: the copy of `*this` with `sh.commandLog = commandLog`. -/
def Sh.CommandLog (this : Sh) (commandLog : Option Writer) : Sh :=
  { this with commandLog := commandLog }

/-- `Sh.CommandLogPrefix`: the copy of `*this` with `sh.commandLogPrefix = prefix`. -/
def Sh.CommandLogPrefix (this : Sh) (pfx : GoString) : Sh :=
  { this with commandLogPrefix := pfx }

/-- The test `sh.expanders == ExpandDisabled()`: equality of interface values,
true for the value `expandDisabled(2)` only. -/
def Expander.isDisabled : Expander → Bool
  | .expandDisabled => true
  | _ => false

/-- The expander `exp` of the second branch of `expandArgs`: `sh.expanders`,
behind `ExpandMap(sh.env)` when there is an env. -/
def Sh.resolver (sh : Sh) : Expander :=
  match sh.env with
  | some env => ChainExpanders [ExpandMap env, sh.expanders]
  | none => sh.expanders

/-- The loop `for i, value := range xs { args[i] = f(value) }` for an `f` that
may panic: the results in order, or the first panic. -/
def mapArgs {α : Type} (f : α → Except GoString GoString) :
    List α → Except GoString (List GoString)
  | [] => .ok []
  | value :: rest =>
    match f value with
    | .error msg => .error msg
    | .ok a => (mapArgs f rest).map (a :: ·)

/-- `Sh.expandArgs` (`sh.go`, lines 233-254). -/
def Sh.expandArgs (osenv : GoMap) (sh : Sh) : Except GoString (List GoString) :=
  if sh.expanders.isDisabled then
    mapArgs (fun value => .ok value.String) sh.args
  else
    mapArgs (Arg.Expand ((sh.resolver).Expand osenv)) sh.args

/-- The map `ENV` of `sh_test.go`: `hello` is `world`. -/
def ENV : GoMap := [("hello".toList, "world".toList)]

/-! ## Pointers to `Sh`

The builder methods have a pointer receiver: they read `*this`, build the copy
`sh` and return `&sh`.  The heap makes the allocation explicit. -/

/-- The `Sh` values allocated so far; a `*Sh` is an index into it. -/
abbrev Heap := List Sh

/-- A `*Sh`. -/
abbrev Ptr := Nat

/-- The shape shared by the seven builder methods: `var sh = *this`, the
assignment `update` to one field of `sh`, and `return &sh`, a fresh object.
A `this` that points to no object has no result (the dereference faults). -/
def Heap.build (h : Heap) (this : Ptr) (update : Sh → Sh) : Option (Heap × Ptr) :=
  match h[this]? with
  | none => none
  | some sh => some (h ++ [update sh], h.length)

/-- `this.Line(commandLine)` on the heap. -/
def Heap.Line (h : Heap) (this : Ptr) (commandLine : GoString) : Option (Heap × Ptr) :=
  h.build this (fun sh => sh.Line commandLine)

/-- `this.LineArgs(commandLine...)` on the heap. -/
def Heap.LineArgs (h : Heap) (this : Ptr) (commandLine : List GoString) : Option (Heap × Ptr) :=
  h.build this (fun sh => sh.LineArgs commandLine)

/-- `this.Expand(expander)` on the heap. -/
def Heap.Expand (h : Heap) (this : Ptr) (expander : Expander) : Option (Heap × Ptr) :=
  h.build this (fun sh => sh.Expand expander)

/-- `this.Env(env)` on the heap. -/
def Heap.Env (h : Heap) (this : Ptr) (env : Option GoMap) : Option (Heap × Ptr) :=
  h.build this (fun sh => sh.Env env)

/-- `this.Dir(dir)` on the heap. -/
def Heap.Dir (h : Heap) (this : Ptr) (dir : GoString) : Option (Heap × Ptr) :=
  h.build this (fun sh => sh.Dir dir)

/-- `this.CommandLog(commandLog)` on the heap. -/
def Heap.CommandLog (h : Heap) (this : Ptr) (commandLog : Option Writer) : Option (Heap × Ptr) :=
  h.build this (fun sh => sh.CommandLog commandLog)

/-- `this.CommandLogPrefix(prefix)` on the heap. -/
def Heap.CommandLogPrefix (h : Heap) (this : Ptr) (pfx : GoString) : Option (Heap × Ptr) :=
  h.build this (fun sh => sh.CommandLogPrefix pfx)

/-- The call `r` of a builder method on heap `h` through `this`, which points
to `s`, returned a pointer to a new object holding `n`: the pointer is fresh,
`this` still points to `s`, and every object of `h` is as it was. -/
def Heap.returnsNew (h : Heap) (this : Ptr) (s : Sh) (r : Option (Heap × Ptr)) (n : Sh) : Prop :=
  ∃ h' p, r = some (h', p) ∧ h'[p]? = some n ∧ h.length ≤ p ∧ h'[this]? = some s ∧
    ∀ q, q < h.length → h'[q]? = h[q]?

/-! ## `Sh.String` (`sh.go`, lines 32 and 256-270) -/

/-- The regular expression `needsQuote` matched against `arg`: some character
of `arg` is a single quote, a double quote, a space, a tab, a CR or a LF. -/
def needsQuote (arg : GoString) : Bool :=
  arg.any (fun c => c == '\'' || c == '"' || c == ' ' || c == '\t' || c == '\r' || c == '\n')

/-- `strings.ReplaceAll(s, old, new)` for a one-byte `old`, as in all five calls
of `Sh.String`. -/
def replaceAll : GoString → Char → GoString → GoString
  | [], _, _ => []
  | c :: rest, old, new => (if c == old then new else [c]) ++ replaceAll rest old new

/-- The five `strings.ReplaceAll` calls of `Sh.String`, in the order of the
source: backslash, CR, LF, tab, double quote. -/
def escapeArg (arg : GoString) : GoString :=
  replaceAll
    (replaceAll
      (replaceAll
        (replaceAll (replaceAll arg '\\' ['\\', '\\']) '\r' ['\\', 'r'])
        '\n' ['\\', 'n'])
      '\t' ['\\', 't'])
    '"' ['\\', '"']

/-- The body of the loop of `Sh.String`, giving `t[i]` from `args[i]`: when
`needsQuote` matches, the escaped argument between two copies of the
two-character raw string of line 266 (two double quotes); otherwise `t[i]`
is not assigned and keeps the zero value, the empty string. -/
def displayArg (arg : GoString) : GoString :=
  if needsQuote arg then ['"', '"'] ++ escapeArg arg ++ ['"', '"'] else []

/-- `strings.Join(elems, sep)`. -/
def stringsJoin : List GoString → GoString → GoString
  | [], _ => []
  | [a], _ => a
  | a :: b :: rest, sep => a ++ sep ++ stringsJoin (b :: rest) sep

/-- `Sh.String`: the display form of every resolved argument, joined by single
spaces; a panic of `expandArgs` propagates. -/
def Sh.String (osenv : GoMap) (sh : Sh) : Except GoString GoString :=
  match sh.expandArgs osenv with
  | .error msg => .error msg
  | .ok args => .ok (stringsJoin (args.map displayArg) [' '])

/-! ## Vocabulary for the properties of quotes, references and the display form -/

/-- The content of a double-quoted run as the scan accumulates it: backslash +
double quote contributes a double quote, every other character itself. -/
def unescapeQuotes : GoString → GoString
  | [] => []
  | [c] => [c]
  | c :: c2 :: rest =>
    if c == '\\' && c2 == '"' then '"' :: unescapeQuotes rest
    else c :: unescapeQuotes (c2 :: rest)

/-- Whether a double-quoted run holds a double quote that no backslash
precedes, which closes the quote. -/
def closesQuote : GoString → Bool
  | [] => false
  | [c] => c == '"'
  | c :: c2 :: rest =>
    if c == '\\' && c2 == '"' then closesQuote rest
    else c == '"' || closesQuote (c2 :: rest)

/-- The tokens are well written and each is followed by a non-empty run of
whitespace. -/
def lineSeparated (items : List (Token × GoString)) : Bool :=
  items.all (fun item => item.1.wellWritten && !item.2.isEmpty && item.2.all isWhitespace)

/-- Every dollar sign of the string is its last character or is followed by a
character that `after` accepts. -/
def dollarsFollowedBy (after : Char → Bool) : GoString → Bool
  | [] => true
  | [_] => true
  | c :: d :: rest => (c != '$' || after d) && dollarsFollowedBy after (d :: rest)

/-- The name begins with an ASCII digit. -/
def startsWithDigit : GoString → Bool
  | [] => false
  | c :: _ => '0' ≤ c && c ≤ '9'

/-- The text after a bare name does not continue it: it is empty or begins
with a character that is not a letter, a digit or an underscore. -/
def atNameEnd : GoString → Bool
  | [] => true
  | d :: _ => !isAlphaNum d

/-- A piece of a string: text without dollar signs, or a braced reference by
its name. -/
inductive Piece where
  | text (t : GoString)
  | ref (name : GoString)
  deriving DecidableEq, Repr

/-- The characters that write the piece. -/
def Piece.raw : Piece → GoString
  | .text t => t
  | .ref name => '$' :: '{' :: name ++ ['}']

/-- The text holds no dollar sign; the name of a braced reference is not
empty and holds no closing brace. -/
def Piece.wellWritten : Piece → Bool
  | .text t => t.all (· != '$')
  | .ref name => !name.isEmpty && name.all (· != '}')

/-- The string written by a sequence of pieces. -/
def piecesRaw (pieces : List Piece) : GoString :=
  (pieces.map Piece.raw).flatten

/-- A decoder for `escapeArg`: a backslash and the character after it stand
for one character (`r`, `n`, `t` for CR, LF, tab, any other for itself). -/
def unescapeArg : GoString → GoString
  | [] => []
  | [c] => [c]
  | c :: d :: rest =>
    if c == '\\' then
      (if d == 'r' then '\r' else if d == 'n' then '\n' else if d == 't' then '\t' else d)
        :: unescapeArg rest
    else c :: unescapeArg (d :: rest)

/-! ## Tokens with escapes -/

/-- A span of a token, by the characters written between its quotes: as a
`Fragment`, but a double-quoted span may hold escaped double quotes. -/
inductive Span where
  | unquoted (text : GoString)
  | single (text : GoString)
  | double (inner : GoString)
  deriving DecidableEq, Repr

/-- The characters that write the span in the raw line. -/
def Span.raw : Span → GoString
  | .unquoted t => t
  | .single t => '\'' :: t ++ ['\'']
  | .double inner => '"' :: inner ++ ['"']

/-- The Segment a span stands for: an unquoted or single-quoted text as it is,
the inside of a double-quoted span with each backslash + double quote read
as a double quote; expandable unless the span is single-quoted. -/
def Span.part : Span → ArgPart
  | .unquoted t => ⟨t, true⟩
  | .single t => ⟨t, false⟩
  | .double inner => ⟨unescapeQuotes inner, true⟩

/-- Whether the span is unquoted. -/
def Span.isUnquoted : Span → Bool
  | .unquoted _ => true
  | _ => false

/-- The span is written as `raw` says: an unquoted span is a non-empty run of
characters that are neither whitespace nor quotes; a single-quoted text
holds no single quote; the inside of a double-quoted span holds no double
quote but after a backslash, and does not end in a backslash (which would
escape the closing quote). -/
def Span.wellWritten : Span → Bool
  | .unquoted t => !t.isEmpty && t.all (fun c => !isWhitespace c && !isQuote c)
  | .single t => t.all (· != '\'')
  | .double inner => !closesQuote inner && inner.getLast? != some '\\'

/-- Every span is well written and no two unquoted spans are adjacent. -/
def spansWellWritten : List Span → Bool
  | [] => true
  | [s] => s.wellWritten
  | s :: u :: rest =>
    s.wellWritten && !(s.isUnquoted && u.isUnquoted) && spansWellWritten (u :: rest)

/-- The characters that write a token of adjacent spans. -/
def spansRaw (spans : List Span) : GoString :=
  (spans.map Span.raw).flatten

/-- The Argument of a token of adjacent spans: their Segments, in order. -/
def spansArg (spans : List Span) : Arg :=
  spans.map Span.part

/-- The characters of a line of tokens of spans, each followed by its
separator. -/
def wordsRaw (items : List (List Span × GoString)) : GoString :=
  (items.map (fun item => spansRaw item.1 ++ item.2)).flatten

/-- Every token has at least one span, is well written, and is followed by a
non-empty run of whitespace. -/
def wordsSeparated (items : List (List Span × GoString)) : Bool :=
  items.all (fun item =>
    !item.1.isEmpty && spansWellWritten item.1 && !item.2.isEmpty && item.2.all isWhitespace)

/-! # Properties -/

/-! ## Chains of expanders -/

@[simp] theorem expand_expanders (osenv : GoMap) (next : List Expander) (key : GoString) :
    (Expander.expanders next).Expand osenv key = expandersExpand osenv next key := by
  simp [Expander.Expand]

theorem expandersExpand_nil (osenv : GoMap) (key : GoString) :
    expandersExpand osenv [] key = .ok ([], false) := by
  simp [expandersExpand]

theorem expandersExpand_cons_found (osenv : GoMap) (f : Expander) (rest : List Expander)
    (key v : GoString) (h : f.Expand osenv key = .ok (v, true)) :
    expandersExpand osenv (f :: rest) key = .ok (v, true) := by
  simp [expandersExpand, h]

theorem expandersExpand_cons_notFound (osenv : GoMap) (f : Expander) (rest : List Expander)
    (key w : GoString) (h : f.Expand osenv key = .ok (w, false)) :
    expandersExpand osenv (f :: rest) key = expandersExpand osenv rest key := by
  simp [expandersExpand, h]

theorem expandersExpand_cons_panic (osenv : GoMap) (f : Expander) (rest : List Expander)
    (key msg : GoString) (h : f.Expand osenv key = .error msg) :
    expandersExpand osenv (f :: rest) key = .error msg := by
  simp [expandersExpand, h]



/-- Case analysis of one step of the chain on the outcome of its head. -/
theorem expandersExpand_cons_cases (osenv : GoMap) (f : Expander) (rest : List Expander)
    (key : GoString) :
    (∃ msg, f.Expand osenv key = .error msg ∧
        expandersExpand osenv (f :: rest) key = .error msg) ∨
    (∃ v, f.Expand osenv key = .ok (v, true) ∧
        expandersExpand osenv (f :: rest) key = .ok (v, true)) ∨
    (∃ w, f.Expand osenv key = .ok (w, false) ∧
        expandersExpand osenv (f :: rest) key = expandersExpand osenv rest key) := by
  rcases h : f.Expand osenv key with msg | ⟨v, b⟩
  · exact Or.inl ⟨msg, rfl, expandersExpand_cons_panic osenv f rest key msg h⟩
  · cases b
    · exact Or.inr (Or.inr ⟨v, rfl, expandersExpand_cons_notFound osenv f rest key v h⟩)
    · exact Or.inr (Or.inl ⟨v, rfl, expandersExpand_cons_found osenv f rest key v h⟩)

theorem expandersExpand_append_found (osenv : GoMap) (pre : List Expander) (f : Expander)
    (post : List Expander) (key v : GoString)
    (hpre : ∀ g ∈ pre, ∃ w, g.Expand osenv key = .ok (w, false))
    (hf : f.Expand osenv key = .ok (v, true)) :
    expandersExpand osenv (pre ++ f :: post) key = .ok (v, true) := by
  induction pre with
  | nil => exact expandersExpand_cons_found osenv f post key v hf
  | cons g pre ih =>
    obtain ⟨w, hw⟩ := hpre g (List.mem_cons_self g pre)
    rw [List.cons_append, expandersExpand_cons_notFound osenv g _ key w hw]
    exact ih (fun g' hg' => hpre g' (List.mem_cons_of_mem g hg'))

theorem expandersExpand_found_split (osenv : GoMap) (es : List Expander) (key v : GoString)
    (h : expandersExpand osenv es key = .ok (v, true)) :
    ∃ pre f post, es = pre ++ f :: post ∧
      (∀ g ∈ pre, ∃ w, g.Expand osenv key = .ok (w, false)) ∧
      f.Expand osenv key = .ok (v, true) := by
  induction es with
  | nil => simp [expandersExpand_nil] at h
  | cons g es ih =>
    rcases expandersExpand_cons_cases osenv g es key with
      ⟨msg, _, hc⟩ | ⟨v', hg, hc⟩ | ⟨w, hg, hc⟩
    · rw [hc] at h; cases h
    · rw [hc] at h
      cases h
      exact ⟨[], g, es, rfl, by simp, hg⟩
    · rw [hc] at h
      obtain ⟨pre, f, post, hes, hpre, hf⟩ := ih h
      refine ⟨g :: pre, f, post, by simp [hes], ?_, hf⟩
      intro g' hg'
      rcases List.mem_cons.mp hg' with rfl | hmem
      · exact ⟨w, hg⟩
      · exact hpre g' hmem

theorem expandersExpand_notFound_iff (osenv : GoMap) (es : List Expander) (key : GoString) :
    expandersExpand osenv es key = .ok ([], false) ↔
      ∀ g ∈ es, ∃ w, g.Expand osenv key = .ok (w, false) := by
  induction es with
  | nil => simp [expandersExpand_nil]
  | cons g es ih =>
    rcases expandersExpand_cons_cases osenv g es key with
      ⟨msg, hg, hc⟩ | ⟨v', hg, hc⟩ | ⟨w, hg, hc⟩
    · rw [hc]
      constructor
      · intro h; cases h
      · intro h
        obtain ⟨w, hw⟩ := h g (List.mem_cons_self g es)
        rw [hg] at hw; cases hw
    · rw [hc]
      constructor
      · intro h; cases h
      · intro h
        obtain ⟨w, hw⟩ := h g (List.mem_cons_self g es)
        rw [hg] at hw; cases hw
    · rw [hc, ih]
      constructor
      · intro h g' hg'
        rcases List.mem_cons.mp hg' with rfl | hmem
        · exact ⟨w, hg⟩
        · exact h g' hmem
      · intro h g' hg'
        exact h g' (List.mem_cons_of_mem g hg')

/-- C1. `ChainExpanders(es...).Expand(k)` returns `(v, true)` exactly when `es`
splits as `pre ++ f :: post` where every expander of `pre` reports not-found
for `k` and `f` returns `(v, true)`: `v` is the value of the first expander
that reports found.  The expanders `post` after it are arbitrary (they may
panic), so they are not consulted.  The chain returns `("", false)` exactly
when every expander of `es` reports not-found for `k`. -/
theorem chainExpanders_first_found (osenv : GoMap) (es : List Expander) (k : GoString) :
    (∀ v, (ChainExpanders es).Expand osenv k = .ok (v, true) ↔
      ∃ pre f post, es = pre ++ f :: post ∧
        (∀ g ∈ pre, ∃ w, g.Expand osenv k = .ok (w, false)) ∧
        f.Expand osenv k = .ok (v, true)) ∧
    ((ChainExpanders es).Expand osenv k = .ok ([], false) ↔
      ∀ g ∈ es, ∃ w, g.Expand osenv k = .ok (w, false)) := by
  refine ⟨fun v => ⟨?_, ?_⟩, ?_⟩
  · intro h
    exact expandersExpand_found_split osenv es k v (by simpa [ChainExpanders] using h)
  · rintro ⟨pre, f, post, rfl, hpre, hf⟩
    simpa [ChainExpanders] using expandersExpand_append_found osenv pre f post k v hpre hf
  · simpa [ChainExpanders] using expandersExpand_notFound_iff osenv es k

theorem resolver_present (osenv : GoMap) (sh : Sh) (env : GoMap) (k v : GoString)
    (henv : sh.env = some env) (hk : env.lookup k = some v) :
    sh.resolver.Expand osenv k = .ok (v, true) := by
  simp [Sh.resolver, henv, ChainExpanders, ExpandMap]
  apply expandersExpand_cons_found
  simp [Expander.Expand, mapIndex, hk]

theorem resolver_absent (osenv : GoMap) (sh : Sh) (env : GoMap) (k : GoString)
    (henv : sh.env = some env) (hk : env.lookup k = none) :
    sh.resolver.Expand osenv k =
      match sh.expanders.Expand osenv k with
      | .error msg => .error msg
      | .ok (v, true) => .ok (v, true)
      | .ok (_, false) => .ok ([], false) := by
  simp only [Sh.resolver, henv, ChainExpanders, ExpandMap, expand_expanders]
  rw [expandersExpand_cons_notFound osenv _ _ k [] (by simp [Expander.Expand, mapIndex, hk])]
  rcases expandersExpand_cons_cases osenv sh.expanders [] k with
      ⟨msg, hg, hc⟩ | ⟨v', hg, hc⟩ | ⟨w, hg, hc⟩
  · rw [hc, hg]
  · rw [hc, hg]
  · rw [hc, hg, expandersExpand_nil]

/-! ## Braced references -/

theorem except_map_ok {ε α β : Type} (f : α → β) (a : α) :
    (Except.ok a : Except ε α).map f = .ok (f a) := rfl

theorem except_map_error {ε α β : Type} (f : α → β) (e : ε) :
    (Except.error e : Except ε α).map f = .error e := rfl

theorem except_map_map {ε α β γ : Type} (f : α → β) (g : β → γ) (r : Except ε α) :
    (r.map f).map g = r.map (fun a => g (f a)) := by
  cases r <;> rfl

theorem except_map_id {ε α : Type} (r : Except ε α) :
    r.map (fun a => a) = r := by
  cases r <;> rfl

theorem except_map_nil_append {ε α : Type} (r : Except ε (List α)) :
    r.map (fun l => [] ++ l) = r := by
  cases r <;> rfl

/-- Without a dollar sign the scan copies its input. -/
theorem osExpandLoop_noDollar (m : GoString → Except GoString GoString) (s : GoString)
    (fuel : Nat) (hs : '$' ∉ s) (hfuel : s.length ≤ fuel) :
    osExpandLoop m fuel s = .ok s := by
  induction s generalizing fuel with
  | nil => cases fuel <;> simp [osExpandLoop]
  | cons c rest ih =>
    cases fuel with
    | zero => simp at hfuel
    | succ fuel =>
      have hc : c ≠ '$' := fun h => hs (by simp [h])
      have hrest : '$' ∉ rest := fun h => hs (List.mem_cons_of_mem c h)
      have hlen : rest.length ≤ fuel := by simpa using hfuel
      simp [osExpandLoop, hc, ih fuel hrest hlen, except_map_ok]

/-- A prefix without a dollar sign is copied, and the scan goes on after it. -/
theorem osExpandLoop_prefix (m : GoString → Except GoString GoString) (pre s : GoString)
    (fuel : Nat) (hpre : '$' ∉ pre) :
    osExpandLoop m (pre.length + fuel) (pre ++ s) = (osExpandLoop m fuel s).map (pre ++ ·) := by
  induction pre with
  | nil => simp [except_map_id]
  | cons c pre ih =>
    have hc : c ≠ '$' := fun h => hpre (by simp [h])
    have hrest : '$' ∉ pre := fun h => hpre (List.mem_cons_of_mem c h)
    have hlen : (c :: pre).length + fuel = (pre.length + fuel) + 1 := by
      simp only [List.length_cons]; omega
    have hb : (c == '$') = false := by simpa using hc
    rw [hlen, List.cons_append]
    simp only [osExpandLoop, hb, Bool.false_and, Bool.false_eq_true, if_false,
      ih hrest, except_map_map, List.cons_append]

theorem isBracedSpecial_name (name post : GoString) (hname : name ≠ [])
    (hbrace : '}' ∉ name) (h : isBracedSpecial (name ++ '}' :: post) = true) :
    (name ++ '}' :: post).take 1 = name ∧ name.length = 1 := by
  match name, hname, hbrace with
  | [c1], _, _ => simp
  | c1 :: c2 :: name, _, hbrace =>
    have hc2 : c2 ≠ '}' := fun h => hbrace (by simp [h])
    simp [isBracedSpecial, hc2] at h

theorem scanToBrace_name (name post : GoString) (hname : name ≠ [])
    (hbrace : '}' ∉ name) :
    scanToBrace (name ++ '}' :: post) = (name, name.length + 2) := by
  have htw : (name ++ '}' :: post).takeWhile (· != '}') = name := by
    rw [List.takeWhile_append_of_pos]
    · simp
    · intro a ha
      have : a ≠ '}' := fun h => hbrace (h ▸ ha)
      simpa using this
  simp [scanToBrace, htw, hname]

/-- The name of a braced reference: what stands between the braces. -/
theorem getShellName_braced (name post : GoString) (hname : name ≠ [])
    (hbrace : '}' ∉ name) :
    getShellName ('{' :: name ++ '}' :: post) = (name, name.length + 2) := by
  simp only [getShellName, List.cons_append, beq_self_eq_true, if_true]
  by_cases h : isBracedSpecial (name ++ '}' :: post) = true
  · obtain ⟨h1, h2⟩ := isBracedSpecial_name name post hname hbrace h
    simp [h, h1, h2]
  · simp [h, scanToBrace_name name post hname hbrace]

/-- One step of the scan on a braced reference. -/
theorem osExpandLoop_braced (m : GoString → Except GoString GoString) (name post : GoString)
    (fuel : Nat) (hname : name ≠ []) (hbrace : '}' ∉ name) :
    osExpandLoop m (fuel + 1) ('$' :: '{' :: name ++ '}' :: post) =
      match m name with
      | .error msg => .error msg
      | .ok v => (osExpandLoop m fuel post).map (v ++ ·) := by
  have hdrop : (('{' :: name) ++ '}' :: post).drop (name.length + 2) = post := by
    have : (('{' :: name) ++ '}' :: post) = ('{' :: name ++ ['}']) ++ post := by simp
    rw [this]
    exact List.drop_left' (by simp)
  have hg := getShellName_braced name post hname hbrace
  simp only [List.cons_append] at hg hdrop
  have hne : name.isEmpty = false := by simpa using hname
  simp only [List.cons_append]
  simp only [osExpandLoop, beq_self_eq_true, List.isEmpty_cons, Bool.not_false,
    Bool.and_self, if_true]
  rw [hg]
  simp only [hne, Bool.false_and, Bool.false_eq_true, if_false, hdrop]

/-- C3. With `pre` and `post` free of dollar signs and a non-empty `name` free
of closing braces, `Expand(pre + "${" + name + "}" + post, e)` is
`pre + v + post` when `e.Expand(name)` returns `(v, true)`, and `pre + post`
when `e.Expand(name)` reports not-found. -/
theorem expand_braced_reference (osenv : GoMap) (e : Expander) (pre name post : GoString)
    (hname : name ≠ []) (hbrace : '}' ∉ name) (hpre : '$' ∉ pre) (hpost : '$' ∉ post) :
    (∀ v, e.Expand osenv name = .ok (v, true) →
      Expand osenv (pre ++ "$\x7b".toList ++ name ++ "\x7d".toList ++ post) e
        = .ok (pre ++ v ++ post)) ∧
    (∀ w, e.Expand osenv name = .ok (w, false) →
      Expand osenv (pre ++ "$\x7b".toList ++ name ++ "\x7d".toList ++ post) e
        = .ok (pre ++ post)) := by
  have hshape : pre ++ "$\x7b".toList ++ name ++ "\x7d".toList ++ post
      = pre ++ ('$' :: '{' :: name ++ '}' :: post) := by simp
  have hlen : (pre ++ ('$' :: '{' :: name ++ '}' :: post)).length
      = pre.length + ((name.length + 2 + post.length) + 1) := by
    simp only [List.length_append, List.length_cons]; omega
  have hscan : ∀ r, valueOrEmpty (e.Expand osenv) name = .ok r →
      Expand osenv (pre ++ "$\x7b".toList ++ name ++ "\x7d".toList ++ post) e
        = .ok (pre ++ r ++ post) := by
    intro r hr
    rw [hshape, Expand, osExpand, hlen, osExpandLoop_prefix _ _ _ _ hpre,
      osExpandLoop_braced _ _ _ _ hname hbrace, hr]
    simp only []
    rw [osExpandLoop_noDollar _ _ _ hpost (by omega)]
    simp [except_map_ok]
  constructor
  · intro v hv
    exact hscan v (by simp [valueOrEmpty, hv])
  · intro w hw
    simpa using hscan [] (by simp [valueOrEmpty, hw])

/-- C3, at `a ${hello} b` with the map of the tests. -/
theorem expand_braced_reference_witness :
    Expand [] ("a ".toList ++ "$\x7b".toList ++ "hello".toList ++ "\x7d".toList ++ " b".toList)
        (ExpandMap ENV)
      = .ok ("a ".toList ++ "world".toList ++ " b".toList) :=
  (expand_braced_reference [] (ExpandMap ENV) "a ".toList "hello".toList " b".toList
    (by decide) (by decide) (by decide) (by decide)).1 "world".toList rfl

/-! ## Resolution of the arguments -/

theorem mapArgs_ok {α : Type} (g : α → GoString) (l : List α) :
    mapArgs (fun value => .ok (g value)) l = .ok (l.map g) := by
  induction l with
  | nil => rfl
  | cons a l ih => simp [mapArgs, ih, except_map_ok]

theorem mapArgs_congr {α : Type} (f g : α → Except GoString GoString) (l : List α)
    (h : ∀ a ∈ l, f a = g a) : mapArgs f l = mapArgs g l := by
  induction l with
  | nil => rfl
  | cons a l ih =>
    simp only [mapArgs, h a (List.mem_cons_self a l)]
    rw [ih (fun b hb => h b (List.mem_cons_of_mem a hb))]

theorem mapArgs_map {α β : Type} (f : β → Except GoString GoString) (g : α → β) (l : List α) :
    mapArgs f (l.map g) = mapArgs (fun a => f (g a)) l := by
  induction l with
  | nil => rfl
  | cons a l ih => simp only [List.map_cons, mapArgs, ih]

theorem expandArgs_of_disabled (osenv : GoMap) (sh : Sh) (h : sh.expanders = ExpandDisabled) :
    sh.expandArgs osenv = .ok (sh.args.map Arg.String) := by
  simp [Sh.expandArgs, h, ExpandDisabled, Expander.isDisabled, mapArgs_ok]

theorem arg_string_single (x : GoString) (b : Bool) : Arg.String [⟨x, b⟩] = x := by
  simp [Arg.String]

/-- C4. With `ExpandDisabled()` nothing is substituted:
`New().Env(env).Expand(ExpandDisabled()).LineArgs(xs...)` resolves to exactly
`xs` for every `env` (nil or not) and every `xs`; in general a disabled `Sh`
resolves every argument to the concatenation of its segments' texts. -/
theorem expandArgs_disabled_verbatim (osenv : GoMap) (env : Option GoMap) (xs : List GoString) :
    (((New.Env env).Expand ExpandDisabled).LineArgs xs).expandArgs osenv = .ok xs ∧
    (∀ sh : Sh, sh.expanders = ExpandDisabled →
      sh.expandArgs osenv = .ok (sh.args.map Arg.String)) ∧
    (((New.Env (some ENV)).Expand ExpandDisabled).Line "go $\x7bhello\x7d".toList).expandArgs osenv
      = .ok ["go".toList, "$\x7bhello\x7d".toList] := by
  refine ⟨?_, fun sh h => expandArgs_of_disabled osenv sh h, ?_⟩
  · rw [expandArgs_of_disabled osenv _ rfl]
    have hmap : ∀ l : List GoString,
        (l.map (fun value => ([⟨value, true⟩] : Arg))).map Arg.String = l := by
      intro l
      induction l with
      | nil => rfl
      | cons x l ih => simp only [List.map_cons, arg_string_single, ih]
    exact congrArg Except.ok (hmap xs)
  · rw [expandArgs_of_disabled osenv _ rfl]
    decide

theorem arg_expand_single (lookup : GoString → Lookup) (x : GoString) :
    Arg.Expand lookup [⟨x, true⟩] = osExpand x (valueOrEmpty lookup) := by
  simp only [Arg.Expand, if_true]
  cases osExpand x (valueOrEmpty lookup) <;> simp [except_map_ok]

/-- C5. `LineArgs(xs...)` sets as many arguments as there are strings, the
`i`-th being the single segment `(xs[i], true)` whatever characters `xs[i]`
holds; when expansion is not disabled each resolves to `Expand(xs[i], exp)`
for the resolver `exp` of `expandArgs`. -/
theorem lineArgs_one_segment_each (osenv : GoMap) (sh : Sh) (xs : List GoString) :
    (sh.LineArgs xs).args.length = xs.length ∧
    (∀ i (h : i < xs.length), (sh.LineArgs xs).args[i]? = some [⟨xs[i], true⟩]) ∧
    (sh.expanders.isDisabled = false →
      (sh.LineArgs xs).expandArgs osenv = mapArgs (fun x => Expand osenv x sh.resolver) xs) ∧
    ((New.Env (some ENV)).LineArgs
        ["go".toList, "'\"arg1\"'".toList, "\"'arg2'\"".toList]).expandArgs osenv
      = .ok ["go".toList, "'\"arg1\"'".toList, "\"'arg2'\"".toList] ∧
    ((New.Env (some ENV)).LineArgs ["go".toList, "'\"$\x7bhello\x7d\"'".toList]).expandArgs osenv
      = .ok ["go".toList, "'\"world\"'".toList] ∧
    ((New.Env (some ENV)).LineArgs ["a  b $hello".toList]).expandArgs osenv
      = .ok ["a  b world".toList] := by
  refine ⟨by simp [Sh.LineArgs], ?_, ?_, rfl, rfl, rfl⟩
  · intro i h
    simp [Sh.LineArgs, h]
  · intro he
    have hd : (sh.LineArgs xs).expanders.isDisabled = false := he
    simp only [Sh.expandArgs, hd, Bool.false_eq_true, if_false]
    show mapArgs _ (xs.map _) = _
    rw [mapArgs_map]
    apply mapArgs_congr
    intro x _
    rw [arg_expand_single]
    rfl

/-- C2. For a `Sh` with a non-nil env and an expander other than
`ExpandDisabled()`, `expandArgs` resolves references with the chain of the env
map and then the configured expander `e`: a key of env gets `(env[k], true)`
whatever `e` is (so `e` is not consulted), a key absent from env gets the
outcome of `e.Expand(k)` (a not-found value being returned as the empty
string, which is `e.Expand(k)` itself for an `e` that honours the contract of
`Expander`).  With env `{hello: world}` the line `go "${hello} world"`
resolves to `[go, world world]`. -/
theorem expandArgs_env_before_expander (osenv : GoMap) (sh : Sh) (env : GoMap)
    (henv : sh.env = some env) (he : sh.expanders.isDisabled = false) :
    sh.expandArgs osenv = mapArgs (Arg.Expand (sh.resolver.Expand osenv)) sh.args ∧
    (∀ k v, env.lookup k = some v → sh.resolver.Expand osenv k = .ok (v, true)) ∧
    (∀ k, env.lookup k = none →
      sh.resolver.Expand osenv k =
        match sh.expanders.Expand osenv k with
        | .error msg => .error msg
        | .ok (v, true) => .ok (v, true)
        | .ok (_, false) => .ok ([], false)) ∧
    (∀ k, env.lookup k = none → honoursContract (sh.expanders.Expand osenv k) →
      sh.resolver.Expand osenv k = sh.expanders.Expand osenv k) ∧
    (env = ENV → sh.args = Parse "go \"$\x7bhello\x7d world\"".toList →
      sh.expandArgs osenv = .ok ["go".toList, "world world".toList]) := by
  have hexp : sh.expandArgs osenv = mapArgs (Arg.Expand (sh.resolver.Expand osenv)) sh.args := by
    simp [Sh.expandArgs, he]
  refine ⟨hexp, fun k v hk => resolver_present osenv sh env k v henv hk,
    fun k hk => resolver_absent osenv sh env k henv hk, ?_, ?_⟩
  · intro k hk hc
    rw [resolver_absent osenv sh env k henv hk]
    rcases h : sh.expanders.Expand osenv k with msg | ⟨v, b⟩
    · rfl
    · cases b
      · have hv : v = [] := hc v h
        simp [hv]
      · rfl
  · intro hE hargs
    subst hE
    rw [hexp, hargs]
    simp only [Sh.resolver, henv]
    rfl

/-- C2, at `New().Env(ENV).Expand(ExpandPanic()).Line(...)`: the key `hello` is
found in the env and the panicking expander behind it is never reached. -/
theorem expandArgs_env_before_expander_witness :
    (((New.Env (some ENV)).Expand ExpandPanic).Line
        "go \"$\x7bhello\x7d world\"".toList).expandArgs []
      = .ok ["go".toList, "world world".toList] :=
  (expandArgs_env_before_expander []
    (((New.Env (some ENV)).Expand ExpandPanic).Line "go \"$\x7bhello\x7d world\"".toList)
    ENV rfl rfl).2.2.2.2 rfl rfl

/-- The effect of a builder call on the heap. -/
theorem Heap.build_spec (h : Heap) (this : Ptr) (s : Sh) (update : Sh → Sh)
    (hs : h[this]? = some s) :
    ∃ h' p, h.build this update = some (h', p) ∧ h'[p]? = some (update s) ∧
      p = h.length ∧ h'[this]? = some s ∧ ∀ q, q < h.length → h'[q]? = h[q]? := by
  have hlt : this < h.length := by
    rcases Nat.lt_or_ge this h.length with hlt | hge
    · exact hlt
    · have : h[this]? = none := List.getElem?_eq_none hge
      rw [this] at hs; cases hs
  refine ⟨h ++ [update s], h.length, by simp [Heap.build, hs], by simp, rfl, ?_, ?_⟩
  · rw [List.getElem?_append_left hlt, hs]
  · intro q hq
    rw [List.getElem?_append_left hq]

theorem Heap.build_returnsNew (h : Heap) (this : Ptr) (s : Sh) (update : Sh → Sh)
    (hs : h[this]? = some s) :
    h.returnsNew this s (h.build this update) (update s) := by
  obtain ⟨h', p, hr, hp, hfresh, hthis, hold⟩ := Heap.build_spec h this s update hs
  exact ⟨h', p, hr, hp, Nat.le_of_eq hfresh.symm, hthis, hold⟩

/-- C6. Each of `Line`, `LineArgs`, `Expand`, `Env`, `Dir`, `CommandLog` and
`CommandLogPrefix`, called through a pointer `this` to `s`, returns a pointer
to a new `Sh` in which the field the method sets has the given value and the
five other fields are those of `s`; `this` still points to `s` afterwards and
no object that existed before the call is changed. -/
theorem builders_copy_on_write (h : Heap) (this : Ptr) (s : Sh) (hs : h[this]? = some s)
    (commandLine : GoString) (xs : List GoString) (e : Expander) (env : Option GoMap)
    (d : GoString) (w : Option Writer) (pfx : GoString) :
    (∃ n, h.returnsNew this s (h.Line this commandLine) n ∧
      n.args = Parse commandLine ∧ n.expanders = s.expanders ∧ n.env = s.env ∧
      n.dir = s.dir ∧ n.commandLog = s.commandLog ∧
      n.commandLogPrefix = s.commandLogPrefix) ∧
    (∃ n, h.returnsNew this s (h.LineArgs this xs) n ∧
      n.args = xs.map (fun x => [⟨x, true⟩]) ∧ n.expanders = s.expanders ∧ n.env = s.env ∧
      n.dir = s.dir ∧ n.commandLog = s.commandLog ∧
      n.commandLogPrefix = s.commandLogPrefix) ∧
    (∃ n, h.returnsNew this s (h.Expand this e) n ∧
      n.expanders = e ∧ n.args = s.args ∧ n.env = s.env ∧
      n.dir = s.dir ∧ n.commandLog = s.commandLog ∧
      n.commandLogPrefix = s.commandLogPrefix) ∧
    (∃ n, h.returnsNew this s (h.Env this env) n ∧
      n.env = env ∧ n.args = s.args ∧ n.expanders = s.expanders ∧
      n.dir = s.dir ∧ n.commandLog = s.commandLog ∧
      n.commandLogPrefix = s.commandLogPrefix) ∧
    (∃ n, h.returnsNew this s (h.Dir this d) n ∧
      n.dir = d ∧ n.args = s.args ∧ n.expanders = s.expanders ∧ n.env = s.env ∧
      n.commandLog = s.commandLog ∧ n.commandLogPrefix = s.commandLogPrefix) ∧
    (∃ n, h.returnsNew this s (h.CommandLog this w) n ∧
      n.commandLog = w ∧ n.args = s.args ∧ n.expanders = s.expanders ∧ n.env = s.env ∧
      n.dir = s.dir ∧ n.commandLogPrefix = s.commandLogPrefix) ∧
    (∃ n, h.returnsNew this s (h.CommandLogPrefix this pfx) n ∧
      n.commandLogPrefix = pfx ∧ n.args = s.args ∧ n.expanders = s.expanders ∧
      n.env = s.env ∧ n.dir = s.dir ∧ n.commandLog = s.commandLog) :=
  ⟨⟨_, Heap.build_returnsNew h this s _ hs, rfl, rfl, rfl, rfl, rfl, rfl⟩,
   ⟨_, Heap.build_returnsNew h this s _ hs, rfl, rfl, rfl, rfl, rfl, rfl⟩,
   ⟨_, Heap.build_returnsNew h this s _ hs, rfl, rfl, rfl, rfl, rfl, rfl⟩,
   ⟨_, Heap.build_returnsNew h this s _ hs, rfl, rfl, rfl, rfl, rfl, rfl⟩,
   ⟨_, Heap.build_returnsNew h this s _ hs, rfl, rfl, rfl, rfl, rfl, rfl⟩,
   ⟨_, Heap.build_returnsNew h this s _ hs, rfl, rfl, rfl, rfl, rfl, rfl⟩,
   ⟨_, Heap.build_returnsNew h this s _ hs, rfl, rfl, rfl, rfl, rfl, rfl⟩⟩

/-- C6, at the heap of `TestCmdImmutableUsage`: `cmdEnv := New().Env(ENV)` is
the only object, and `cmdEnv.Dir("/test")` among the other calls. -/
theorem builders_copy_on_write_witness :
    ∃ n, Heap.returnsNew [New.Env (some ENV)] 0 (New.Env (some ENV))
        (Heap.Dir [New.Env (some ENV)] 0 "/test".toList) n ∧
      n.dir = "/test".toList ∧ n.args = (New.Env (some ENV)).args ∧
      n.expanders = (New.Env (some ENV)).expanders ∧ n.env = (New.Env (some ENV)).env ∧
      n.commandLog = (New.Env (some ENV)).commandLog ∧
      n.commandLogPrefix = (New.Env (some ENV)).commandLogPrefix :=
  (builders_copy_on_write [New.Env (some ENV)] 0 (New.Env (some ENV)) rfl
    [] [] ExpandEnv none "/test".toList none []).2.2.2.2.1

/-- C7. With a variable source read as the map `m` (`ExpandMap(m)`, or
`ExpandEnv()` over the environment `m`), `ChainExpanders(source,
ExpandPanic()).Expand(k)` returns `(m[k], true)` when `k` is a key of `m`,
also when the value is empty, and panics with `can not find value to expand
'${k}'` exactly when `k` is not a key of `m`; `ExpandPanic().Expand(k)` itself
panics for every `k`. -/
theorem chain_with_panic (osenv m : GoMap) (k : GoString) :
    (∀ v, m.lookup k = some v →
      (ChainExpanders [ExpandMap m, ExpandPanic]).Expand osenv k = .ok (v, true) ∧
      (ChainExpanders [ExpandEnv, ExpandPanic]).Expand m k = .ok (v, true)) ∧
    ((ChainExpanders [ExpandMap m, ExpandPanic]).Expand osenv k
        = .error ("can not find value to expand '$\x7b".toList ++ k ++ "\x7d'".toList)
      ↔ m.lookup k = none) ∧
    ((ChainExpanders [ExpandEnv, ExpandPanic]).Expand m k
        = .error ("can not find value to expand '$\x7b".toList ++ k ++ "\x7d'".toList)
      ↔ m.lookup k = none) ∧
    (∀ r, (ChainExpanders [ExpandMap m, ExpandPanic]).Expand osenv k = .ok r →
      m.lookup k ≠ none) ∧
    (∀ r, (ChainExpanders [ExpandEnv, ExpandPanic]).Expand m k = .ok r →
      m.lookup k ≠ none) ∧
    ExpandPanic.Expand osenv k
        = .error ("can not find value to expand '$\x7b".toList ++ k ++ "\x7d'".toList) ∧
    (∀ r, ExpandPanic.Expand osenv k ≠ .ok r) := by
  have hmap : ∀ env : GoMap, (ChainExpanders [ExpandMap m, ExpandPanic]).Expand env k =
      match m.lookup k with
      | some v => .ok (v, true)
      | none => .error (panicMessage k) := by
    intro env
    cases hk : m.lookup k <;>
      simp [ChainExpanders, ExpandMap, ExpandPanic, expandersExpand, Expander.Expand,
        mapIndex, hk]
  have henv : (ChainExpanders [ExpandEnv, ExpandPanic]).Expand m k =
      match m.lookup k with
      | some v => .ok (v, true)
      | none => .error (panicMessage k) := by
    cases hk : m.lookup k <;>
      simp [ChainExpanders, ExpandEnv, ExpandPanic, expandersExpand, Expander.Expand,
        mapIndex, hk]
  have hmsg : panicMessage k
      = "can not find value to expand '$\x7b".toList ++ k ++ "\x7d'".toList := rfl
  rw [hmap osenv, henv, ← hmsg]
  refine ⟨?_, ?_, ?_, ?_, ?_, rfl, ?_⟩
  · intro v hv
    simp [hv]
  · cases hk : m.lookup k <;> simp
  · cases hk : m.lookup k <;> simp
  · intro r
    cases hk : m.lookup k <;> simp
  · intro r
    cases hk : m.lookup k <;> simp
  · intro r h
    simp [ExpandPanic, Expander.Expand] at h

/-! ### The scan of `Parse`, piece by piece -/

@[simp] theorem flushSegment_nil (arg : Arg) : flushSegment arg [] = arg := rfl

@[simp] theorem flushArgument_nil (line : List Arg) : flushArgument line [] = line := rfl

theorem flushSegment_of_ne (arg : Arg) (text : GoString) (h : text ≠ []) :
    flushSegment arg text = arg ++ [⟨text, true⟩] := by
  cases text with
  | nil => exact absurd rfl h
  | cons c t => rfl

theorem flushArgument_of_ne (line : List Arg) (arg : Arg) (h : arg ≠ []) :
    flushArgument line arg = line ++ [arg] := by
  cases arg with
  | nil => exact absurd rfl h
  | cons c t => rfl

/-- One step of the scan outside quotes, on whitespace. -/
theorem parseLoop_none_whitespace (line : List Arg) (arg : Arg) (text : GoString) (c : Char)
    (rest : GoString) (hc : isWhitespace c = true) :
    parseLoop .none line arg text (c :: rest) =
      parseLoop .none (flushArgument line (flushSegment arg text)) [] [] rest := by
  simp [parseLoop, hc]

/-- One step of the scan outside quotes, on an ordinary character. -/
theorem parseLoop_none_plain (line : List Arg) (arg : Arg) (text : GoString) (c : Char)
    (rest : GoString) (hw : isWhitespace c = false) (hq : isQuote c = false) :
    parseLoop .none line arg text (c :: rest) = parseLoop .none line arg (text ++ [c]) rest := by
  have h1 : (c == '\'') = false := by
    simp only [isQuote, Bool.or_eq_false_iff] at hq; exact hq.1
  have h2 : (c == '"') = false := by
    simp only [isQuote, Bool.or_eq_false_iff] at hq; exact hq.2
  simp [parseLoop, hw, h1, h2]

/-- Leading whitespace is skipped. -/
theorem parseLoop_skip_whitespace (line : List Arg) (ws rest : GoString)
    (hws : ws.all isWhitespace = true) :
    parseLoop .none line [] [] (ws ++ rest) = parseLoop .none line [] [] rest := by
  induction ws with
  | nil => rfl
  | cons c ws ih =>
    simp only [List.all_cons, Bool.and_eq_true] at hws
    rw [List.cons_append, parseLoop_none_whitespace _ _ _ _ _ hws.1]
    exact ih hws.2

/-- A run of ordinary characters is accumulated in the pending text. -/
theorem parseLoop_unquoted_run (line : List Arg) (arg : Arg) (text t rest : GoString)
    (ht : t.all (fun c => !isWhitespace c && !isQuote c) = true) :
    parseLoop .none line arg text (t ++ rest) = parseLoop .none line arg (text ++ t) rest := by
  induction t generalizing text with
  | nil => simp
  | cons c t ih =>
    simp only [List.all_cons, Bool.and_eq_true, Bool.not_eq_true'] at ht
    rw [List.cons_append, parseLoop_none_plain _ _ _ _ _ ht.1.1 ht.1.2, ih _ (by simpa using ht.2)]
    simp

/-- Inside single quotes everything up to the next single quote is the content. -/
theorem parseLoop_single_run (line : List Arg) (arg : Arg) (text t rest : GoString)
    (ht : t.all (· != '\'') = true) :
    parseLoop .single line arg text (t ++ '\'' :: rest) =
      parseLoop .none line (arg ++ [⟨text ++ t, false⟩]) [] rest := by
  induction t generalizing text with
  | nil => simp [parseLoop]
  | cons c t ih =>
    simp only [List.all_cons, Bool.and_eq_true] at ht
    have hc : (c == '\'') = false := by simpa using ht.1
    rw [List.cons_append]
    simp only [parseLoop, hc, Bool.false_eq_true, if_false]
    rw [ih _ ht.2]
    simp

/-- Inside double quotes everything up to the closing double quote is the
content, when no backslash stands before a double quote. -/
theorem parseLoop_double_run (line : List Arg) (arg : Arg) (text t rest : GoString)
    (ht : t.all (· != '"') = true) (hlast : t.getLast? ≠ some '\\') :
    parseLoop .double line arg text (t ++ '"' :: rest) =
      parseLoop .none line (arg ++ [⟨text ++ t, true⟩]) [] rest := by
  induction t generalizing text with
  | nil => cases rest <;> simp [parseLoop]
  | cons c t ih =>
    simp only [List.all_cons, Bool.and_eq_true] at ht
    have hc : (c == '"') = false := by simpa using ht.1
    cases t with
    | nil =>
      have hb : (c == '\\') = false := by
        have : c ≠ '\\' := fun h => hlast (by simp [h])
        simpa using this
      have hstep : parseLoop .double line arg text (c :: '"' :: rest) =
          parseLoop .double line arg (text ++ [c]) ('"' :: rest) := by
        simp [parseLoop, hc, hb]
      have := ih (text ++ [c]) (by simp) (by simp)
      simp only [List.nil_append, List.append_nil] at this
      simp only [List.cons_append, List.nil_append]
      rw [hstep, this]
    | cons c2 t =>
      have hc2 : (c2 == '"') = false := by
        have := ht.2
        simp only [List.all_cons, Bool.and_eq_true] at this
        simpa using this.1
      have hstep : parseLoop .double line arg text (c :: c2 :: (t ++ '"' :: rest)) =
          parseLoop .double line arg (text ++ [c]) (c2 :: (t ++ '"' :: rest)) := by
        simp [parseLoop, hc, hc2]
      have hlast2 : (c2 :: t).getLast? ≠ some '\\' := by
        simpa [List.getLast?_cons_cons] using hlast
      have := ih (text ++ [c]) ht.2 hlast2
      simp only [List.cons_append, List.append_assoc, List.nil_append] at this ⊢
      rw [hstep, this]

/-- At the end of an unquoted fragment the pending text is flushed. -/
theorem parseLoop_flush_pending (line : List Arg) (arg : Arg) (text rest : GoString)
    (hrest : atFragmentEnd rest = true) :
    parseLoop .none line arg text rest =
      parseLoop .none line (flushSegment arg text) [] rest := by
  cases rest with
  | nil => simp [parseLoop]
  | cons c rest =>
    by_cases hw : isWhitespace c = true
    · rw [parseLoop_none_whitespace _ _ _ _ _ hw, parseLoop_none_whitespace _ _ _ _ _ hw]
      simp
    · have hw : isWhitespace c = false := by simpa using hw
      have hq : isQuote c = true := by simpa [atFragmentEnd, hw] using hrest
      simp only [isQuote, Bool.or_eq_true] at hq
      rcases hq with hq | hq
      · simp [parseLoop, hw, hq]
      · by_cases h1 : (c == '\'') = true
        · simp [parseLoop, hw, h1]
        · simp [parseLoop, hw, h1, hq]

/-- The scan of one fragment appends its Segment to the Argument. -/
theorem parseLoop_fragment (line : List Arg) (arg : Arg) (f : Fragment) (rest : GoString)
    (hf : f.wellWritten = true) (hrest : f.isUnquoted = true → atFragmentEnd rest = true) :
    parseLoop .none line arg [] (f.raw ++ rest) = parseLoop .none line (arg ++ [f.part]) [] rest := by
  cases f with
  | unquoted t =>
    simp only [Fragment.wellWritten, Bool.and_eq_true, Bool.not_eq_true',
      List.isEmpty_eq_false] at hf
    rw [Fragment.raw, parseLoop_unquoted_run _ _ _ _ _ hf.2,
      parseLoop_flush_pending _ _ _ _ (hrest rfl), List.nil_append,
      flushSegment_of_ne _ _ hf.1]
    rfl
  | single t =>
    have hopen : parseLoop .none line arg [] ('\'' :: (t ++ '\'' :: rest)) =
        parseLoop .single line arg [] (t ++ '\'' :: rest) := by
      simp [parseLoop, isWhitespace]
    have hraw : (Fragment.single t).raw ++ rest = '\'' :: (t ++ '\'' :: rest) := by
      simp [Fragment.raw]
    rw [hraw, hopen, parseLoop_single_run _ _ _ _ _ hf]
    rfl
  | double t =>
    simp only [Fragment.wellWritten, Bool.and_eq_true, bne_iff_ne, ne_eq] at hf
    have hopen : parseLoop .none line arg [] ('"' :: (t ++ '"' :: rest)) =
        parseLoop .double line arg [] (t ++ '"' :: rest) := by
      simp [parseLoop, isWhitespace]
    have hraw : (Fragment.double t).raw ++ rest = '"' :: (t ++ '"' :: rest) := by
      simp [Fragment.raw]
    rw [hraw, hopen, parseLoop_double_run _ _ _ _ _ hf.1 hf.2]
    rfl

theorem atFragmentEnd_of_atTokenEnd (rest : GoString) (h : atTokenEnd rest = true) :
    atFragmentEnd rest = true := by
  cases rest with
  | nil => rfl
  | cons c rest =>
    have hw : isWhitespace c = true := h
    simp [atFragmentEnd, hw]

theorem atFragmentEnd_raw_quoted (g : Fragment) (rest : GoString)
    (hg : g.isUnquoted = false) : atFragmentEnd (g.raw ++ rest) = true := by
  cases g with
  | unquoted t => simp [Fragment.isUnquoted] at hg
  | single t => simp [Fragment.raw, atFragmentEnd, isQuote]
  | double t => simp [Fragment.raw, atFragmentEnd, isQuote]

/-- The scan of one token appends the Segments of its fragments, in order. -/
theorem parseLoop_token (line : List Arg) (arg : Arg) (tok : Token) (rest : GoString)
    (htok : fragmentsWellWritten tok = true) (hrest : atTokenEnd rest = true) :
    parseLoop .none line arg [] (tok.raw ++ rest) = parseLoop .none line (arg ++ tok.arg) [] rest := by
  induction tok generalizing arg with
  | nil => simp [Token.raw, Token.arg]
  | cons f tok ih =>
    cases tok with
    | nil =>
      have hf : f.wellWritten = true := htok
      have hraw : Token.raw [f] ++ rest = f.raw ++ rest := by simp [Token.raw]
      rw [hraw, parseLoop_fragment _ _ _ _ hf
        (fun _ => atFragmentEnd_of_atTokenEnd rest hrest)]
      rfl
    | cons g tok =>
      simp only [fragmentsWellWritten, Bool.and_eq_true, Bool.not_eq_true',
        Bool.and_eq_false_iff] at htok
      obtain ⟨⟨hf, hadj⟩, hmore⟩ := htok
      have hraw : Token.raw (f :: g :: tok) ++ rest
          = f.raw ++ (Token.raw (g :: tok) ++ rest) := by
        simp [Token.raw]
      have hnext : f.isUnquoted = true → atFragmentEnd (Token.raw (g :: tok) ++ rest) = true := by
        intro hfu
        have hg : g.isUnquoted = false := by
          rcases hadj with h | h
          · rw [h] at hfu; cases hfu
          · exact h
        have : Token.raw (g :: tok) ++ rest = g.raw ++ (Token.raw tok ++ rest) := by
          simp [Token.raw]
        rw [this]
        exact atFragmentEnd_raw_quoted g _ hg
      rw [hraw, parseLoop_fragment _ _ _ _ hf hnext, ih _ hmore]
      simp [Token.arg]

/-- The scan of a well-written line yields one Argument per token. -/
theorem parseLoop_rawLine (line : List Arg) (items : List (Token × GoString))
    (hitems : lineWellWritten items = true) :
    parseLoop .none line [] [] (rawLine items) = line ++ items.map (fun item => item.1.arg) := by
  induction items generalizing line with
  | nil => simp [rawLine, parseLoop]
  | cons item items ih =>
    obtain ⟨tok, sep⟩ := item
    have hfacts : tok.wellWritten = true ∧ sep.all isWhitespace = true ∧
        (items ≠ [] → sep ≠ []) ∧ lineWellWritten items = true := by
      cases items with
      | nil =>
        simp only [lineWellWritten, Bool.and_eq_true] at hitems
        exact ⟨hitems.1, hitems.2, fun h => absurd rfl h, rfl⟩
      | cons next items =>
        simp only [lineWellWritten, Bool.and_eq_true, Bool.not_eq_true',
          List.isEmpty_eq_false] at hitems
        exact ⟨hitems.1.1.1, hitems.1.2, fun _ => hitems.1.1.2, hitems.2⟩
    obtain ⟨htok, hsep, hne, hrest⟩ := hfacts
    simp only [Token.wellWritten, Bool.and_eq_true, Bool.not_eq_true',
      List.isEmpty_eq_false] at htok
    have harg : tok.arg ≠ [] := by
      simpa [Token.arg] using htok.1
    have hraw : rawLine ((tok, sep) :: items) = tok.raw ++ (sep ++ rawLine items) := by
      simp [rawLine]
    have hend : atTokenEnd (sep ++ rawLine items) = true := by
      cases sep with
      | nil =>
        cases items with
        | nil => rfl
        | cons next items => exact absurd rfl (hne (by simp))
      | cons c sep =>
        simp only [List.all_cons, Bool.and_eq_true] at hsep
        exact hsep.1
    rw [hraw, parseLoop_token _ _ _ _ htok.2 hend, List.nil_append]
    cases sep with
    | nil =>
      cases items with
      | nil => simp [rawLine, parseLoop, flushArgument_of_ne _ _ harg]
      | cons next items => exact absurd rfl (hne (by simp))
    | cons c sep =>
      simp only [List.all_cons, Bool.and_eq_true] at hsep
      rw [List.cons_append, parseLoop_none_whitespace _ _ _ _ _ hsep.1, flushSegment_nil,
        flushArgument_of_ne _ _ harg, parseLoop_skip_whitespace _ _ _ hsep.2, ih _ hrest]
      simp

/-- `Parse` on a well-written line: the Arguments of its tokens, in order. -/
theorem parse_rawLine (lead : GoString) (items : List (Token × GoString))
    (hlead : lead.all isWhitespace = true) (hitems : lineWellWritten items = true) :
    Parse (lead ++ rawLine items) = items.map (fun item => item.1.arg) := by
  rw [Parse, parseLoop_skip_whitespace _ _ _ hlead, parseLoop_rawLine _ _ hitems]
  simp

/-! ### Lines without quotes -/

theorem modifyHead_nil_append (l : List GoString) :
    l.modifyHead (fun run => [] ++ run) = l := by
  cases l <;> simp [List.modifyHead]

theorem modifyHead_append_cons (text : GoString) (c : Char) (l : List GoString) :
    (l.modifyHead (List.cons c)).modifyHead (fun run => text ++ run)
      = l.modifyHead (fun run => (text ++ [c]) ++ run) := by
  cases l <;> simp [List.modifyHead]

/-- Without quotes the scan splits its input at whitespace; the pending text
belongs to the first run. -/
theorem parseLoop_unquoted_fields (line : List Arg) (text s : GoString)
    (hs : s.all (fun c => !isQuote c) = true) :
    parseLoop .none line [] text s =
      line ++ ((((s.splitOnP isWhitespace).modifyHead (fun run => text ++ run)).filter
        (fun run => !run.isEmpty)).map (fun run => [⟨run, true⟩])) := by
  induction s generalizing line text with
  | nil =>
    cases text with
    | nil => simp [parseLoop, List.splitOnP_nil, List.modifyHead]
    | cons c t => simp [parseLoop, List.splitOnP_nil, List.modifyHead, flushSegment, flushArgument]
  | cons c s ih =>
    simp only [List.all_cons, Bool.and_eq_true, Bool.not_eq_true'] at hs
    have hs2 : s.all (fun c => !isQuote c) = true := by simpa using hs.2
    by_cases hw : isWhitespace c = true
    · rw [parseLoop_none_whitespace _ _ _ _ _ hw, ih _ _ hs2, List.splitOnP_cons, if_pos hw,
        modifyHead_nil_append]
      cases text with
      | nil => simp [List.modifyHead]
      | cons d t => simp [List.modifyHead, flushSegment, flushArgument]
    · have hw2 : isWhitespace c = false := by simpa using hw
      rw [parseLoop_none_plain _ _ _ _ _ hw2 hs.1, ih _ _ hs2, List.splitOnP_cons, if_neg hw,
        modifyHead_append_cons]

theorem splitOnP_runs (p : Char → Bool) (s : GoString) :
    ∀ run ∈ s.splitOnP p, ∀ c ∈ run, p c = false := by
  induction s with
  | nil => simp [List.splitOnP_nil]
  | cons x xs ih =>
    rw [List.splitOnP_cons]
    by_cases hx : p x = true
    · rw [if_pos hx]
      intro run hrun
      rcases List.mem_cons.mp hrun with rfl | h
      · simp
      · exact ih run h
    · rw [if_neg hx]
      cases hsplit : xs.splitOnP p with
      | nil => simp [List.modifyHead]
      | cons hd tl =>
        rw [hsplit] at ih
        intro run hrun
        simp only [List.modifyHead, List.mem_cons] at hrun
        rcases hrun with rfl | h
        · intro c hc
          rcases List.mem_cons.mp hc with rfl | hc
          · simpa using hx
          · exact ih hd (List.mem_cons_self hd tl) c hc
        · exact ih run (List.mem_cons_of_mem hd h)

/-- Every field is a non-empty run of characters that are not whitespace. -/
theorem fields_runs (s : GoString) :
    ∀ run ∈ fields s, run ≠ [] ∧ ∀ c ∈ run, isWhitespace c = false := by
  intro run hrun
  simp only [fields, List.mem_filter, Bool.not_eq_true', List.isEmpty_eq_false] at hrun
  exact ⟨hrun.2, splitOnP_runs isWhitespace s run hrun.1⟩

/-- C9. On an input without quote characters `Parse` returns the maximal runs of
non-whitespace characters in input order, each as one Argument with a single
expandable Segment; no Argument is empty, and an empty or all-whitespace
input yields the empty Line. -/
theorem parse_unquoted_is_fields (s : GoString) (hs : s.all (fun c => !isQuote c) = true) :
    Parse s = (fields s).map (fun run => [⟨run, true⟩]) ∧
    (∀ arg ∈ Parse s, ∃ run, arg = [⟨run, true⟩] ∧ run ≠ [] ∧
      ∀ c ∈ run, isWhitespace c = false) ∧
    (s.all isWhitespace = true → Parse s = []) ∧
    Parse "  go \t   hello \n  world \r rocks   ".toList
      = [[⟨"go".toList, true⟩], [⟨"hello".toList, true⟩], [⟨"world".toList, true⟩],
         [⟨"rocks".toList, true⟩]] := by
  have hparse : Parse s = (fields s).map (fun run => [⟨run, true⟩]) := by
    rw [Parse, parseLoop_unquoted_fields _ _ _ hs, fields, modifyHead_nil_append]
    simp
  refine ⟨hparse, ?_, ?_, by decide⟩
  · intro arg harg
    rw [hparse] at harg
    obtain ⟨run, hrun, rfl⟩ := List.mem_map.mp harg
    exact ⟨run, rfl, fields_runs s run hrun⟩
  · intro hws
    have := parseLoop_skip_whitespace [] s [] hws
    simp only [List.append_nil] at this
    rw [Parse, this]
    rfl

/-- C9, at the line of `TestCmdLineUsage` with whitespace all around. -/
theorem parse_unquoted_is_fields_witness :
    Parse "  go \t   hello \n  world \r rocks   ".toList
      = (fields "  go \t   hello \n  world \r rocks   ".toList).map
          (fun run => [⟨run, true⟩]) :=
  (parse_unquoted_is_fields "  go \t   hello \n  world \r rocks   ".toList (by decide)).1

/-! ### Tokens and fragments -/

/-- C8. In a line of whitespace-separated tokens `Parse` yields one Argument
per token; the Argument of a token written without quotes is the single
Segment `(token, true)`, and that of a token written inside one pair of
single quotes is the single Segment `(content, false)`, quotes removed and
the content kept as text.  `Sh.Line` stores the result of `Parse`. -/
theorem parse_plain_and_single_quoted (lead : GoString) (items : List (Token × GoString))
    (hlead : lead.all isWhitespace = true) (hitems : lineWellWritten items = true)
    (i : Nat) (t sep : GoString) :
    (Parse (lead ++ rawLine items)).length = items.length ∧
    (items[i]? = some ([.unquoted t], sep) →
      (Parse (lead ++ rawLine items))[i]? = some [⟨t, true⟩]) ∧
    (items[i]? = some ([.single t], sep) →
      (Parse (lead ++ rawLine items))[i]? = some [⟨t, false⟩]) ∧
    Parse "go '$\x7bhello\x7d'".toList
      = [[⟨"go".toList, true⟩], [⟨"$\x7bhello\x7d".toList, false⟩]] ∧
    Parse "echo $\x7bhello\x7d".toList
      = [[⟨"echo".toList, true⟩], [⟨"$\x7bhello\x7d".toList, true⟩]] ∧
    (∀ (sh : Sh) (commandLine : GoString), (sh.Line commandLine).args = Parse commandLine) := by
  rw [parse_rawLine lead items hlead hitems]
  refine ⟨by simp, ?_, ?_, by decide, by decide, fun _ _ => rfl⟩
  · intro h
    simp [List.getElem?_map, h, Token.arg, Fragment.part]
  · intro h
    simp [List.getElem?_map, h, Token.arg, Fragment.part]

/-- C8, at `go '${hello}'`: the second token is single-quoted. -/
theorem parse_plain_and_single_quoted_witness :
    (Parse ([] ++ rawLine [([.unquoted "go".toList], " ".toList),
        ([.single "$\x7bhello\x7d".toList], [])]))[1]?
      = some [⟨"$\x7bhello\x7d".toList, false⟩] :=
  (parse_plain_and_single_quoted []
    [([.unquoted "go".toList], " ".toList), ([.single "$\x7bhello\x7d".toList], [])]
    (by decide) (by decide) 1 "$\x7bhello\x7d".toList []).2.2.1 rfl

/-- An Argument without dollar signs resolves to the concatenation of the texts
of its Segments, whatever the resolver. -/
theorem arg_expand_noDollar (lookup : GoString → Lookup) (arg : Arg)
    (h : ∀ part ∈ arg, '$' ∉ part.Value) : Arg.Expand lookup arg = .ok arg.String := by
  induction arg with
  | nil => rfl
  | cons part rest ih =>
    have hpart : (if part.Expand then osExpand part.Value (valueOrEmpty lookup)
        else .ok part.Value) = .ok part.Value := by
      split
      · exact osExpandLoop_noDollar _ _ _ (h part (List.mem_cons_self part rest)) (Nat.le_refl _)
      · rfl
    simp only [Arg.Expand, hpart, ih (fun p hp => h p (List.mem_cons_of_mem part hp)),
      except_map_ok]
    simp [Arg.String]

/-- C10. A closing quote does not end the Argument: in a line of
whitespace-separated tokens, each made of adjacent unquoted, single-quoted
and double-quoted fragments, `Parse` yields for every token one Argument
whose Segments are the contents of the fragments in order, expandable unless
single-quoted; an Argument free of dollar signs resolves to the concatenation
of the contents. -/
theorem parse_adjacent_fragments (lead : GoString) (items : List (Token × GoString))
    (hlead : lead.all isWhitespace = true) (hitems : lineWellWritten items = true) :
    Parse (lead ++ rawLine items) = items.map (fun item => item.1.map Fragment.part) ∧
    (∀ (lookup : GoString → Lookup), ∀ item ∈ items,
      (∀ f ∈ item.1, '$' ∉ (Fragment.part f).Value) →
      Arg.Expand lookup (item.1.map Fragment.part)
        = .ok (item.1.map (fun f => (Fragment.part f).Value)).flatten) ∧
    Parse "ab'c def 'ghi".toList
      = [[⟨"ab".toList, true⟩, ⟨"c def ".toList, false⟩, ⟨"ghi".toList, true⟩]] ∧
    (∀ osenv : GoMap,
      ((New.Env (some ENV)).Line "go ab'c def 'hig\" lmn \"opq".toList).expandArgs osenv
        = .ok ["go".toList, "abc def hig lmn opq".toList]) := by
  refine ⟨parse_rawLine lead items hlead hitems, ?_, by decide, fun _ => rfl⟩
  intro lookup item _ hfree
  rw [arg_expand_noDollar lookup _ (by
    intro part hpart
    obtain ⟨f, hf, rfl⟩ := List.mem_map.mp hpart
    exact hfree f hf)]
  simp only [Arg.String, List.map_map]
  rfl

/-- C10, at the token `ab'c def 'ghi` of three fragments. -/
theorem parse_adjacent_fragments_witness :
    Parse ([] ++ rawLine [([.unquoted "ab".toList, .single "c def ".toList,
        .unquoted "ghi".toList], [])])
      = [[⟨"ab".toList, true⟩, ⟨"c def ".toList, false⟩, ⟨"ghi".toList, true⟩]] :=
  (parse_adjacent_fragments []
    [([.unquoted "ab".toList, .single "c def ".toList, .unquoted "ghi".toList], [])]
    (by decide) (by decide)).1

/-! ## Nested chains -/

/-- The chain of a concatenation: the first list is tried, then the second. -/
theorem expandersExpand_append (osenv : GoMap) (xs ys : List Expander) (k : GoString) :
    expandersExpand osenv (xs ++ ys) k =
      match expandersExpand osenv xs k with
      | .error msg => .error msg
      | .ok (v, true) => .ok (v, true)
      | .ok (_, false) => expandersExpand osenv ys k := by
  induction xs with
  | nil => simp [expandersExpand_nil]
  | cons f xs ih =>
    rcases expandersExpand_cons_cases osenv f xs k with
      ⟨msg, _, hc⟩ | ⟨v, _, hc⟩ | ⟨w, _, hc⟩
    · rw [hc, List.cons_append,
        expandersExpand_cons_panic osenv f (xs ++ ys) k msg (by assumption)]
    · rw [hc, List.cons_append,
        expandersExpand_cons_found osenv f (xs ++ ys) k v (by assumption)]
    · rw [hc, List.cons_append,
        expandersExpand_cons_notFound osenv f (xs ++ ys) k w (by assumption), ih]

/-- A chain never reports not-found with a value. -/
theorem expandersExpand_notFound_value (osenv : GoMap) (es : List Expander) (k w : GoString)
    (h : expandersExpand osenv es k = .ok (w, false)) : w = [] := by
  induction es with
  | nil =>
    rw [expandersExpand_nil] at h
    cases h
    rfl
  | cons f es ih =>
    rcases expandersExpand_cons_cases osenv f es k with
      ⟨msg, _, hc⟩ | ⟨v, _, hc⟩ | ⟨w', _, hc⟩
    · rw [hc] at h; cases h
    · rw [hc] at h; cases h
    · rw [hc] at h; exact ih h

/-- C20. `ChainExpanders(ChainExpanders(xs...), ChainExpanders(ys...))` and
`ChainExpanders` of `xs` followed by `ys` give the same outcome for every
key: the same value and found flag, or the same panic.  The empty chain
answers every key as `ExpandNotFound()` does, and nesting it on either side
of a chain changes nothing. -/
theorem chainExpanders_nested_flat (osenv : GoMap) (xs ys : List Expander) (k : GoString) :
    (ChainExpanders [ChainExpanders xs, ChainExpanders ys]).Expand osenv k
      = (ChainExpanders (xs ++ ys)).Expand osenv k ∧
    (ChainExpanders []).Expand osenv k = ExpandNotFound.Expand osenv k ∧
    (ChainExpanders [ChainExpanders [], ChainExpanders ys]).Expand osenv k
      = (ChainExpanders ys).Expand osenv k ∧
    (ChainExpanders [ChainExpanders xs, ChainExpanders []]).Expand osenv k
      = (ChainExpanders xs).Expand osenv k := by
  have hnest : ∀ as bs : List Expander,
      (ChainExpanders [ChainExpanders as, ChainExpanders bs]).Expand osenv k
        = (ChainExpanders (as ++ bs)).Expand osenv k := by
    intro as bs
    simp only [ChainExpanders, expand_expanders]
    rw [expandersExpand_append]
    rcases ha : expandersExpand osenv as k with msg | ⟨v, b⟩
    · exact expandersExpand_cons_panic osenv _ _ k msg (by simpa using ha)
    · cases b
      · rw [expandersExpand_cons_notFound osenv _ _ k v (by simpa using ha)]
        rcases hb : expandersExpand osenv bs k with msg | ⟨v', b'⟩
        · exact expandersExpand_cons_panic osenv _ _ k msg (by simpa using hb)
        · cases b'
          · rw [expandersExpand_cons_notFound osenv _ _ k v' (by simpa using hb),
              expandersExpand_nil]
            have := expandersExpand_notFound_value osenv bs k v' hb
            simp [this]
          · exact expandersExpand_cons_found osenv _ _ k v' (by simpa using hb)
      · exact expandersExpand_cons_found osenv _ _ k v (by simpa using ha)
  refine ⟨hnest xs ys, ?_, ?_, ?_⟩
  · simp [ChainExpanders, ExpandNotFound, Expander.Expand, expandersExpand_nil]
  · simpa using hnest [] ys
  · simpa using hnest xs []

/-! ## The display form -/

/-- `Sh.String` renders argument by argument. -/
theorem string_of_expandArgs (osenv : GoMap) (sh : Sh) (args : List GoString)
    (h : sh.expandArgs osenv = .ok args) :
    sh.String osenv = .ok (stringsJoin (args.map displayArg) [' ']) := by
  simp [Sh.String, h]

/-- C17. The code at the failing input `New().LineArgs("a b")`: `String()`
returns the argument between two double-quote characters on each side, six
characters around and in `a b`, not the one quote on each side of the claim.
In general an argument that needs quoting is rendered as its escaped text
between two pairs of double quotes. -/
theorem string_wraps_in_two_quotes (osenv : GoMap) :
    (New.LineArgs ["a b".toList]).String osenv = .ok "\"\"a b\"\"".toList ∧
    (New.LineArgs ["a b".toList]).String osenv ≠ .ok "\"a b\"".toList ∧
    (∀ arg : GoString, needsQuote arg = true →
      displayArg arg = "\"\"".toList ++ escapeArg arg ++ "\"\"".toList) := by
  have heval : (New.LineArgs ["a b".toList]).String osenv = .ok "\"\"a b\"\"".toList := rfl
  refine ⟨heval, by rw [heval]; decide, ?_⟩
  intro arg h
  simp [displayArg, h]

/-- C18. The code at the failing input `New().LineArgs("go", "version")`:
`String()` returns a single space, not `go version`.  In general an argument
that needs no quoting is rendered as the empty string. -/
theorem string_drops_plain_arguments (osenv : GoMap) :
    (New.LineArgs ["go".toList, "version".toList]).String osenv = .ok " ".toList ∧
    (New.LineArgs ["go".toList, "version".toList]).String osenv ≠ .ok "go version".toList ∧
    (∀ arg : GoString, needsQuote arg = false → displayArg arg = []) := by
  have heval : (New.LineArgs ["go".toList, "version".toList]).String osenv
      = .ok " ".toList := rfl
  refine ⟨heval, by rw [heval]; decide, ?_⟩
  intro arg h
  simp [displayArg, h]

theorem replaceAll_append (a b : GoString) (old : Char) (new : GoString) :
    replaceAll (a ++ b) old new = replaceAll a old new ++ replaceAll b old new := by
  induction a with
  | nil => rfl
  | cons c a ih => simp [replaceAll, ih]

theorem escapeArg_append (a b : GoString) :
    escapeArg (a ++ b) = escapeArg a ++ escapeArg b := by
  simp [escapeArg, replaceAll_append]

theorem escapeArg_cons (c : Char) (rest : GoString) :
    escapeArg (c :: rest) = escapeArg [c] ++ escapeArg rest := by
  rw [← escapeArg_append]
  rfl

/-- The escaped form of one character. -/
theorem escapeArg_single (c : Char) :
    (c = '\\' ∧ escapeArg [c] = ['\\', '\\']) ∨
    (c = '\r' ∧ escapeArg [c] = ['\\', 'r']) ∨
    (c = '\n' ∧ escapeArg [c] = ['\\', 'n']) ∨
    (c = '\t' ∧ escapeArg [c] = ['\\', 't']) ∨
    (c = '"' ∧ escapeArg [c] = ['\\', '"']) ∨
    (c ≠ '\\' ∧ escapeArg [c] = [c]) := by
  by_cases h1 : c = '\\'
  · exact Or.inl ⟨h1, by subst h1; rfl⟩
  by_cases h2 : c = '\r'
  · exact Or.inr (Or.inl ⟨h2, by subst h2; rfl⟩)
  by_cases h3 : c = '\n'
  · exact Or.inr (Or.inr (Or.inl ⟨h3, by subst h3; rfl⟩))
  by_cases h4 : c = '\t'
  · exact Or.inr (Or.inr (Or.inr (Or.inl ⟨h4, by subst h4; rfl⟩)))
  by_cases h5 : c = '"'
  · exact Or.inr (Or.inr (Or.inr (Or.inr (Or.inl ⟨h5, by subst h5; rfl⟩))))
  · refine Or.inr (Or.inr (Or.inr (Or.inr (Or.inr ⟨h1, ?_⟩))))
    simp [escapeArg, replaceAll, h1, h2, h3, h4, h5]

/-- Decoding undoes the escaping of the first character. -/
theorem unescapeArg_escapeArg_cons (c : Char) (x : GoString) :
    unescapeArg (escapeArg [c] ++ x) = c :: unescapeArg x := by
  rcases escapeArg_single c with ⟨hc, he⟩ | ⟨hc, he⟩ | ⟨hc, he⟩ | ⟨hc, he⟩ | ⟨hc, he⟩ | ⟨hc, he⟩
  · rw [he, hc]; simp [unescapeArg]
  · rw [he, hc]; simp [unescapeArg]
  · rw [he, hc]; simp [unescapeArg]
  · rw [he, hc]; simp [unescapeArg]
  · rw [he, hc]; simp [unescapeArg]
  · rw [he]
    cases x with
    | nil => simp [unescapeArg]
    | cons d x => simp [unescapeArg, hc]

/-- The escaped text decodes back to the argument. -/
theorem unescapeArg_escapeArg (a : GoString) : unescapeArg (escapeArg a) = a := by
  induction a with
  | nil => rfl
  | cons c a ih => rw [escapeArg_cons, unescapeArg_escapeArg_cons, ih]

/-- C19. The escaping of `String()` is injective: two distinct arguments that
both need quoting have distinct escaped texts and distinct renderings, and
the escaped text decodes back to the argument. -/
theorem displayArg_injective (a b : GoString) (ha : needsQuote a = true)
    (hb : needsQuote b = true) (hne : a ≠ b) :
    displayArg a ≠ displayArg b ∧ escapeArg a ≠ escapeArg b ∧
    unescapeArg (escapeArg a) = a ∧ unescapeArg (escapeArg b) = b := by
  have hesc : escapeArg a ≠ escapeArg b := by
    intro h
    apply hne
    rw [← unescapeArg_escapeArg a, ← unescapeArg_escapeArg b, h]
  refine ⟨?_, hesc, unescapeArg_escapeArg a, unescapeArg_escapeArg b⟩
  intro h
  simp only [displayArg, ha, hb, if_true] at h
  have h1 := List.append_cancel_right h
  exact hesc (List.append_cancel_left h1)

/-- C19, at two arguments that differ by a tab against a backslash followed by
the letter `t`. -/
theorem displayArg_injective_witness :
    displayArg "a\tb c".toList ≠ displayArg "a\\tb c".toList :=
  (displayArg_injective "a\tb c".toList "a\\tb c".toList (by decide) (by decide)
    (by decide)).1

/-! ## More on the reference scan -/

/-- Fuel beyond the length of the input changes nothing. -/
theorem osExpandLoop_fuel (m : GoString → Except GoString GoString) (fuel1 fuel2 : Nat)
    (s : GoString) (h1 : s.length ≤ fuel1) (h2 : s.length ≤ fuel2) :
    osExpandLoop m fuel1 s = osExpandLoop m fuel2 s := by
  induction fuel1 generalizing fuel2 s with
  | zero =>
    have hs : s = [] := List.length_eq_zero.mp (Nat.le_zero.mp h1)
    subst hs
    cases fuel2 <;> simp [osExpandLoop]
  | succ fuel1 ih =>
    cases s with
    | nil => cases fuel2 <;> simp [osExpandLoop]
    | cons c rest =>
      cases fuel2 with
      | zero => simp at h2
      | succ fuel2 =>
        have hr1 : rest.length ≤ fuel1 := by simpa using h1
        have hr2 : rest.length ≤ fuel2 := by simpa using h2
        have hd : ∀ n, (rest.drop n).length ≤ rest.length := by
          intro n; simp [List.length_drop]
        simp only [osExpandLoop]
        rw [ih fuel2 rest hr1 hr2,
          ih fuel2 (rest.drop (getShellName rest).2) (Nat.le_trans (hd _) hr1)
            (Nat.le_trans (hd _) hr2)]

/-- `os.Expand` copies a prefix without dollar signs. -/
theorem osExpand_prefix (m : GoString → Except GoString GoString) (pre s : GoString)
    (hpre : '$' ∉ pre) : osExpand (pre ++ s) m = (osExpand s m).map (pre ++ ·) := by
  rw [osExpand, osExpand, List.length_append, osExpandLoop_prefix m pre s s.length hpre]

/-- `os.Expand` on a braced reference: the name is mapped, the scan goes on. -/
theorem osExpand_braced (m : GoString → Except GoString GoString) (name post : GoString)
    (hname : name ≠ []) (hbrace : '}' ∉ name) :
    osExpand ('$' :: '{' :: name ++ '}' :: post) m =
      match m name with
      | .error msg => .error msg
      | .ok v => (osExpand post m).map (v ++ ·) := by
  have hlen : ('$' :: '{' :: name ++ '}' :: post).length = (name.length + 2 + post.length) + 1 := by
    simp only [List.length_append, List.length_cons]; omega
  rw [osExpand, hlen, osExpandLoop_braced m name post _ hname hbrace, osExpand,
    osExpandLoop_fuel m (name.length + 2 + post.length) post.length post (by omega)
      (Nat.le_refl _)]

/-- `os.Expand` copies a string without dollar signs. -/
theorem osExpand_noDollar (m : GoString → Except GoString GoString) (s : GoString)
    (hs : '$' ∉ s) : osExpand s m = .ok s :=
  osExpandLoop_noDollar m s s.length hs (Nat.le_refl _)

theorem isAlphaNum_ne_brace (c : Char) (h : isAlphaNum c = true) : c ≠ '{' := by
  intro hc
  subst hc
  exact absurd h (by decide)

theorem isShellSpecialVar_alphaNum (c : Char) (hs : isShellSpecialVar c = true)
    (ha : isAlphaNum c = true) : ('0' ≤ c && c ≤ '9') = true := by
  simp only [isShellSpecialVar, List.mem_cons, List.mem_singleton, decide_eq_true_eq,
    List.not_mem_nil, or_false] at hs
  rcases hs with h | h | h | h | h | h | h | h | h | h | h | h | h | h | h | h | h <;>
    subst h <;> first | decide | exact absurd ha (by decide)

/-- A character that starts no name: the dollar sign before it stays. -/
theorem getShellName_noName (d : Char) (r : GoString) (h1 : d ≠ '{')
    (h2 : isAlphaNum d = false) (h3 : isShellSpecialVar d = false) :
    getShellName (d :: r) = ([], 0) := by
  have hb : (d == '{') = false := by simpa using h1
  simp [getShellName, hb, h3, h2]

/-- A string whose dollar signs start no reference is copied, and the mapping
is never called. -/
theorem osExpandLoop_inert (m : GoString → Except GoString GoString) (s : GoString)
    (fuel : Nat)
    (hs : dollarsFollowedBy
      (fun d => d != '{' && !isAlphaNum d && !isShellSpecialVar d) s = true)
    (hfuel : s.length ≤ fuel) : osExpandLoop m fuel s = .ok s := by
  induction s generalizing fuel with
  | nil => cases fuel <;> simp [osExpandLoop]
  | cons c rest ih =>
    cases fuel with
    | zero => simp at hfuel
    | succ fuel =>
      have hlen : rest.length ≤ fuel := by simpa using hfuel
      cases rest with
      | nil =>
        cases fuel <;> simp [osExpandLoop, except_map_ok]
      | cons d r =>
        simp only [dollarsFollowedBy, Bool.and_eq_true, Bool.or_eq_true, bne_iff_ne, ne_eq,
          Bool.not_eq_true'] at hs
        obtain ⟨hc, hrest⟩ := hs
        have ihr := ih fuel hrest hlen
        by_cases hd : c = '$'
        · subst hd
          have hok : (d ≠ '{' ∧ isAlphaNum d = false) ∧ isShellSpecialVar d = false := by
            rcases hc with h | h
            · exact absurd rfl h
            · exact h
          have hg := getShellName_noName d r hok.1.1 hok.1.2 hok.2
          simp only [osExpandLoop, beq_self_eq_true, List.isEmpty_cons, Bool.not_false,
            Bool.and_self, if_true, hg, List.isEmpty_nil, Nat.lt_irrefl, decide_False,
            Bool.and_false, Bool.false_eq_true, if_false, List.drop_zero, ihr, except_map_ok]
        · have hb : (c == '$') = false := by simpa using hd
          simp only [osExpandLoop, hb, Bool.false_and, Bool.false_eq_true, if_false, ihr,
            except_map_ok]

/-- An opening brace that is never closed names nothing and takes one byte. -/
theorem getShellName_unmatched (post : GoString) (hpost : '}' ∉ post) :
    getShellName ('{' :: post) = ([], 1) := by
  have hspecial : isBracedSpecial post = false := by
    match post, hpost with
    | [], _ => rfl
    | [_], _ => rfl
    | c1 :: c2 :: r, hpost =>
      have : c2 ≠ '}' := fun h => hpost (by simp [h])
      simp [isBracedSpecial, this]
  have htw : post.takeWhile (· != '}') = post := by
    rw [List.takeWhile_eq_self_iff]
    intro a ha
    have : a ≠ '}' := fun h => hpost (h ▸ ha)
    simpa using this
  simp [getShellName, hspecial, scanToBrace, htw]

/-- The scan drops an unmatched `${` and goes on after it. -/
theorem osExpand_unmatched (m : GoString → Except GoString GoString) (post : GoString)
    (hpost : '}' ∉ post) : osExpand ('$' :: '{' :: post) m = osExpand post m := by
  have hg := getShellName_unmatched post hpost
  rw [osExpand, osExpand]
  simp only [List.length_cons, osExpandLoop, beq_self_eq_true, List.isEmpty_cons,
    Bool.not_false, Bool.and_self, if_true, hg, List.isEmpty_nil, Nat.lt_add_one,
    decide_True, List.drop_succ_cons, List.drop_zero]
  exact osExpandLoop_fuel m _ _ post (by omega) (Nat.le_refl _)

/-- C13, as stated, fails at `$$`: both dollar signs satisfy the condition of the
claim (the first is followed by a dollar sign, the second is last), yet
`os.Expand` reads the second as the name of the first and consults the
expander: the result is empty with `ExpandNotFound()`, and `ExpandPanic()`
panics. -/
theorem expand_literal_dollar_counterexample :
    dollarsFollowedBy (fun d => d != '{' && !isAlphaNum d) "$$".toList = true ∧
    Expand [] "$$".toList ExpandNotFound = .ok [] ∧
    Expand [] "$$".toList ExpandNotFound ≠ .ok "$$".toList ∧
    Expand [] "$$".toList ExpandPanic = .error (panicMessage "$".toList) := by
  decide

/-- C13, amended. When every dollar sign of `s` is the last character or is
followed by a character that is neither an opening brace, nor a letter, digit
or underscore, nor one of the shell special characters `* # $ @ ! ? -`,
`Expand(s, e)` is `s` for every expander `e`, which is never consulted. -/
theorem expand_literal_dollar (osenv : GoMap) (e : Expander) (s : GoString)
    (hs : dollarsFollowedBy
      (fun d => d != '{' && !isAlphaNum d && !isShellSpecialVar d) s = true) :
    Expand osenv s e = .ok s :=
  osExpandLoop_inert _ s s.length hs (Nat.le_refl _)

/-- C13, amended, at a string with three literal dollar signs. -/
theorem expand_literal_dollar_witness :
    Expand [] "a $+ $ b$".toList ExpandPanic = .ok "a $+ $ b$".toList :=
  expand_literal_dollar [] ExpandPanic "a $+ $ b$".toList (by decide)

/-- C14, as stated, fails at both of its examples: `Expand("${abc", e)` is `abc`
and `Expand("a ${b c", e)` is `a b c`; the unmatched `${` is dropped, not
emitted. -/
theorem expand_unmatched_brace_counterexample :
    Expand [] "$\x7babc".toList ExpandNotFound = .ok "abc".toList ∧
    Expand [] "$\x7babc".toList ExpandNotFound ≠ .ok "$\x7babc".toList ∧
    Expand [] "a $\x7bb c".toList ExpandNotFound = .ok "a b c".toList ∧
    Expand [] "a $\x7bb c".toList ExpandNotFound ≠ .ok "a $\x7bb c".toList := by
  decide

/-- C14, amended. For every expander `e`, a `pre` without dollar signs and a
`post` without dollar signs and closing braces, `Expand(pre + "${" + post, e)`
does not fail and is `pre + post`: the two characters of the unmatched `${`
are dropped, the text around them is emitted literally, and `e` is not
consulted. -/
theorem expand_unmatched_brace (osenv : GoMap) (e : Expander) (pre post : GoString)
    (hpre : '$' ∉ pre) (hpost : '$' ∉ post) (hbrace : '}' ∉ post) :
    Expand osenv (pre ++ "$\x7b".toList ++ post) e = .ok (pre ++ post) ∧
    Expand osenv "$\x7babc".toList e = .ok "abc".toList ∧
    Expand osenv "a $\x7bb c".toList e = .ok "a b c".toList := by
  have hgen : ∀ p q : GoString, '$' ∉ p → '$' ∉ q → '}' ∉ q →
      Expand osenv (p ++ "$\x7b".toList ++ q) e = .ok (p ++ q) := by
    intro p q hp hq hb
    have hshape : p ++ "$\x7b".toList ++ q = p ++ ('$' :: '{' :: q) := by simp
    rw [hshape, Expand, osExpand_prefix _ _ _ hp, osExpand_unmatched _ _ hb,
      osExpand_noDollar _ _ hq]
    rfl
  exact ⟨hgen pre post hpre hpost hbrace,
    hgen [] "abc".toList (by decide) (by decide) (by decide),
    hgen "a ".toList "b c".toList (by decide) (by decide) (by decide)⟩

/-- C14, amended, at `x=${y z` with the panicking expander. -/
theorem expand_unmatched_brace_witness :
    Expand [] ("x=".toList ++ "$\x7b".toList ++ "y z".toList) ExpandPanic
      = .ok ("x=".toList ++ "y z".toList) :=
  (expand_unmatched_brace [] ExpandPanic "x=".toList "y z".toList
    (by decide) (by decide) (by decide)).1

/-- The name of a bare reference: the maximal run of letters, digits and
underscores, when it does not begin with a digit. -/
theorem getShellName_bare (name post : GoString) (hname : name ≠ [])
    (halnum : name.all isAlphaNum = true) (hdigit : startsWithDigit name = false)
    (hpost : atNameEnd post = true) :
    getShellName (name ++ post) = (name, name.length) := by
  have htw : (name ++ post).takeWhile isAlphaNum = name := by
    rw [List.takeWhile_append_of_pos (by simpa using halnum)]
    cases post with
    | nil => simp
    | cons d r =>
      have hd : isAlphaNum d = false := by simpa [atNameEnd] using hpost
      simp [List.takeWhile_cons, hd]
  cases name with
  | nil => exact absurd rfl hname
  | cons c name =>
    simp only [List.all_cons, Bool.and_eq_true] at halnum
    have hc : isAlphaNum c = true := halnum.1
    have hb : (c == '{') = false := by simpa using isAlphaNum_ne_brace c hc
    have hs : isShellSpecialVar c = false := by
      cases h : isShellSpecialVar c with
      | false => rfl
      | true =>
        have := isShellSpecialVar_alphaNum c h hc
        simp [startsWithDigit] at hdigit this
        exact absurd this.2 (by simpa using hdigit this.1)
    rw [List.cons_append] at htw ⊢
    simp only [getShellName, hb, Bool.false_eq_true, if_false, hs, htw]

/-- `os.Expand` on a bare reference: the name is mapped, the scan goes on. -/
theorem osExpand_bare (m : GoString → Except GoString GoString) (name post : GoString)
    (hname : name ≠ []) (halnum : name.all isAlphaNum = true)
    (hdigit : startsWithDigit name = false) (hpost : atNameEnd post = true) :
    osExpand ('$' :: name ++ post) m =
      match m name with
      | .error msg => .error msg
      | .ok v => (osExpand post m).map (v ++ ·) := by
  have hg := getShellName_bare name post hname halnum hdigit hpost
  have hne : (name ++ post).isEmpty = false := by
    cases name with
    | nil => exact absurd rfl hname
    | cons c name => rfl
  have hnm : name.isEmpty = false := by simpa using hname
  have hlen : ('$' :: name ++ post).length = (name.length + post.length) + 1 := by
    simp only [List.cons_append, List.length_append, List.length_cons]
  rw [osExpand, hlen, List.cons_append]
  simp only [osExpandLoop, beq_self_eq_true, hne, Bool.not_false, Bool.and_self, if_true, hg,
    hnm, Bool.false_and, Bool.false_eq_true, if_false, List.drop_left]
  rw [osExpandLoop_fuel m (name.length + post.length) post.length post (by omega)
    (Nat.le_refl _)]
  rfl

/-- C15, as stated, fails at the name `1a`: `os.Expand` takes a leading digit as
a one-character name, so `Expand("$1a", e)` looks up `1` and keeps the `a`,
where the claim gives the value of `1a`. -/
theorem expand_bare_reference_counterexample :
    ("1a".toList).all isAlphaNum = true ∧
    (ExpandMap [("1a".toList, "X".toList)]).Expand [] "1a".toList = .ok ("X".toList, true) ∧
    Expand [] ([] ++ "$".toList ++ "1a".toList ++ []) (ExpandMap [("1a".toList, "X".toList)])
      = .ok "a".toList ∧
    Expand [] ([] ++ "$".toList ++ "1a".toList ++ []) (ExpandMap [("1a".toList, "X".toList)])
      ≠ .ok ([] ++ "X".toList ++ []) := by
  decide

/-- C15, amended. A bare reference takes the whole maximal identifier as its
name when the name does not begin with a digit: for a non-empty `name` of
ASCII letters, digits and underscores that starts with a letter or an
underscore, `pre` and `post` without dollar signs, and `post` empty or
beginning with a character that is not a letter, digit or underscore,
`Expand(pre + "$" + name + post, e)` is `pre + v + post` when `e.Expand(name)`
returns `(v, true)` and `pre + post` when it reports not-found. -/
theorem expand_bare_reference (osenv : GoMap) (e : Expander) (pre name post : GoString)
    (hname : name ≠ []) (halnum : name.all isAlphaNum = true)
    (hdigit : startsWithDigit name = false) (hpre : '$' ∉ pre) (hpost : '$' ∉ post)
    (hend : atNameEnd post = true) :
    (∀ v, e.Expand osenv name = .ok (v, true) →
      Expand osenv (pre ++ "$".toList ++ name ++ post) e = .ok (pre ++ v ++ post)) ∧
    (∀ w, e.Expand osenv name = .ok (w, false) →
      Expand osenv (pre ++ "$".toList ++ name ++ post) e = .ok (pre ++ post)) := by
  have hshape : pre ++ "$".toList ++ name ++ post = pre ++ ('$' :: name ++ post) := by simp
  have hscan : ∀ r, valueOrEmpty (e.Expand osenv) name = .ok r →
      Expand osenv (pre ++ "$".toList ++ name ++ post) e = .ok (pre ++ r ++ post) := by
    intro r hr
    rw [hshape, Expand, osExpand_prefix _ _ _ hpre,
      osExpand_bare _ _ _ hname halnum hdigit hend, hr]
    simp only []
    rw [osExpand_noDollar _ _ hpost]
    simp [except_map_ok]
  constructor
  · intro v hv
    exact hscan v (by simp [valueOrEmpty, hv])
  · intro w hw
    simpa using hscan [] (by simp [valueOrEmpty, hw])

/-- C15, amended, at `say $hello_1!` with `hello_1` bound. -/
theorem expand_bare_reference_witness :
    Expand [] ("say ".toList ++ "$".toList ++ "hello_1".toList ++ "!".toList)
        (ExpandMap [("hello".toList, "no".toList), ("hello_1".toList, "yes".toList)])
      = .ok ("say ".toList ++ "yes".toList ++ "!".toList) :=
  (expand_bare_reference []
    (ExpandMap [("hello".toList, "no".toList), ("hello_1".toList, "yes".toList)])
    "say ".toList "hello_1".toList "!".toList
    (by decide) (by decide) (by decide) (by decide) (by decide) (by decide)).1
    "yes".toList rfl

/-- With `ExpandDisabled()` the scan reproduces a string made of dollar-free
text and braced references. -/
theorem osExpand_disabled_pieces (osenv : GoMap) (pieces : List Piece)
    (hp : ∀ p ∈ pieces, p.wellWritten = true) :
    osExpand (piecesRaw pieces) (valueOrEmpty (ExpandDisabled.Expand osenv))
      = .ok (piecesRaw pieces) := by
  induction pieces with
  | nil => rfl
  | cons p ps ih =>
    have hps := ih (fun q hq => hp q (List.mem_cons_of_mem p hq))
    have hpw := hp p (List.mem_cons_self p ps)
    cases p with
    | text t =>
      have ht : '$' ∉ t := by
        intro hmem
        have := List.all_eq_true.mp hpw '$' hmem
        simp at this
      have hraw : piecesRaw (Piece.text t :: ps) = t ++ piecesRaw ps := by
        simp [piecesRaw, Piece.raw]
      rw [hraw, osExpand_prefix _ _ _ ht, hps]
      rfl
    | ref name =>
      simp only [Piece.wellWritten, Bool.and_eq_true, Bool.not_eq_true',
        List.isEmpty_eq_false] at hpw
      have hb : '}' ∉ name := by
        intro hmem
        have := List.all_eq_true.mp hpw.2 '}' hmem
        simp at this
      have hraw : piecesRaw (Piece.ref name :: ps)
          = '$' :: '{' :: name ++ '}' :: piecesRaw ps := by
        simp [piecesRaw, Piece.raw]
      have hv : valueOrEmpty (ExpandDisabled.Expand osenv) name
          = .ok ('$' :: '{' :: name ++ ['}']) := rfl
      rw [hraw, osExpand_braced _ _ _ hpw.1 hb, hv]
      simp only []
      rw [hps]
      simp [except_map_ok]

/-- C16, as stated, fails at `$x`: `Expand("$x", ExpandDisabled())` is `${x}`, the
bare reference rewritten in braces, while the verbatim path of `expandArgs`
keeps `$x`. -/
theorem expand_disabled_counterexample :
    Expand [] "$x".toList ExpandDisabled = .ok "$\x7bx\x7d".toList ∧
    Expand [] "$x".toList ExpandDisabled ≠ .ok "$x".toList ∧
    ((New.Expand ExpandDisabled).LineArgs ["$x".toList]).expandArgs [] = .ok ["$x".toList] := by
  decide

/-- C16, amended. `ExpandDisabled().Expand(k)` is `("${" + k + "}", true)` for
every key `k`, and `Expand(s, ExpandDisabled())` is `s` for every string `s`
made of text without dollar signs and of braced references `${name}` with a
non-empty name; on such a string the scanning path gives the text of the
verbatim path of `expandArgs`. -/
theorem expand_disabled (osenv : GoMap) (k : GoString) (pieces : List Piece)
    (hp : ∀ p ∈ pieces, p.wellWritten = true) :
    ExpandDisabled.Expand osenv k = .ok ("$\x7b".toList ++ k ++ "\x7d".toList, true) ∧
    Expand osenv (piecesRaw pieces) ExpandDisabled = .ok (piecesRaw pieces) ∧
    (∀ env : Option GoMap,
      (((New.Env env).Expand ExpandDisabled).LineArgs [piecesRaw pieces]).expandArgs osenv
        = (Expand osenv (piecesRaw pieces) ExpandDisabled).map (fun a => [a])) := by
  have hscan := osExpand_disabled_pieces osenv pieces hp
  refine ⟨rfl, hscan, ?_⟩
  intro env
  rw [Expand, hscan, expandArgs_of_disabled osenv _ rfl]
  simp only [Sh.LineArgs, List.map_cons, List.map_nil, arg_string_single]
  rfl

/-- C16, amended, at `go ${hello} ${a b}!`. -/
theorem expand_disabled_witness :
    Expand [] (piecesRaw [.text "go ".toList, .ref "hello".toList, .text " ".toList,
        .ref "a b".toList, .text "!".toList]) ExpandDisabled
      = .ok (piecesRaw [.text "go ".toList, .ref "hello".toList, .text " ".toList,
        .ref "a b".toList, .text "!".toList]) :=
  (expand_disabled [] [] [.text "go ".toList, .ref "hello".toList, .text " ".toList,
        .ref "a b".toList, .text "!".toList] (by decide)).2.1

/-! ### Open quotes and escapes -/

/-- An unclosed single quote takes the rest of the input. -/
theorem parseLoop_single_open (line : List Arg) (arg : Arg) (text t : GoString)
    (ht : t.all (· != '\'') = true) :
    parseLoop .single line arg text t = line ++ [arg ++ [⟨text ++ t, false⟩]] := by
  induction t generalizing text with
  | nil => simp [parseLoop]
  | cons c t ih =>
    simp only [List.all_cons, Bool.and_eq_true] at ht
    have hc : (c == '\'') = false := by simpa using ht.1
    simp only [parseLoop, hc, Bool.false_eq_true, if_false]
    rw [ih _ ht.2]
    simp

/-- An unclosed double quote takes the rest of the input, when no double quote
occurs in it. -/
theorem parseLoop_double_open (line : List Arg) (arg : Arg) (text t : GoString)
    (ht : t.all (· != '"') = true) :
    parseLoop .double line arg text t = line ++ [arg ++ [⟨text ++ t, true⟩]] := by
  induction t generalizing text with
  | nil => simp [parseLoop]
  | cons c t ih =>
    simp only [List.all_cons, Bool.and_eq_true] at ht
    have hc : (c == '"') = false := by simpa using ht.1
    cases t with
    | nil => simp only [parseLoop, hc, Bool.false_eq_true, if_false]
    | cons c2 t =>
      have hc2 : (c2 == '"') = false := by
        have := ht.2
        simp only [List.all_cons, Bool.and_eq_true] at this
        simpa using this.1
      have hstep : parseLoop .double line arg text (c :: c2 :: t) =
          parseLoop .double line arg (text ++ [c]) (c2 :: t) := by
        simp [parseLoop, hc, hc2]
      rw [hstep, ih _ ht.2]
      simp

/-- Opening a single quote when nothing is pending. -/
theorem parseLoop_open_single (line : List Arg) (arg : Arg) (rest : GoString) :
    parseLoop .none line arg [] ('\'' :: rest) = parseLoop .single line arg [] rest := by
  simp [parseLoop, isWhitespace]

/-- Opening a double quote when nothing is pending. -/
theorem parseLoop_open_double (line : List Arg) (arg : Arg) (rest : GoString) :
    parseLoop .none line arg [] ('"' :: rest) = parseLoop .double line arg [] rest := by
  simp [parseLoop, isWhitespace]

/-- The scan of a token whose last fragment is ended by a quote or by
whitespace. -/
theorem parseLoop_token_open (line : List Arg) (arg : Arg) (tok : Token) (rest : GoString)
    (htok : fragmentsWellWritten tok = true) (hrest : atFragmentEnd rest = true) :
    parseLoop .none line arg [] (tok.raw ++ rest) = parseLoop .none line (arg ++ tok.arg) [] rest := by
  induction tok generalizing arg with
  | nil => simp [Token.raw, Token.arg]
  | cons f tok ih =>
    cases tok with
    | nil =>
      have hf : f.wellWritten = true := htok
      have hraw : Token.raw [f] ++ rest = f.raw ++ rest := by simp [Token.raw]
      rw [hraw, parseLoop_fragment _ _ _ _ hf (fun _ => hrest)]
      rfl
    | cons g tok =>
      simp only [fragmentsWellWritten, Bool.and_eq_true, Bool.not_eq_true',
        Bool.and_eq_false_iff] at htok
      obtain ⟨⟨hf, hadj⟩, hmore⟩ := htok
      have hraw : Token.raw (f :: g :: tok) ++ rest
          = f.raw ++ (Token.raw (g :: tok) ++ rest) := by
        simp [Token.raw]
      have hnext : f.isUnquoted = true → atFragmentEnd (Token.raw (g :: tok) ++ rest) = true := by
        intro hfu
        have hg : g.isUnquoted = false := by
          rcases hadj with h | h
          · rw [h] at hfu; cases hfu
          · exact h
        have : Token.raw (g :: tok) ++ rest = g.raw ++ (Token.raw tok ++ rest) := by
          simp [Token.raw]
        rw [this]
        exact atFragmentEnd_raw_quoted g _ hg
      rw [hraw, parseLoop_fragment _ _ _ _ hf hnext, ih _ hmore]
      simp [Token.arg]

/-- The scan of tokens each followed by whitespace, with input left. -/
theorem parseLoop_separated (line : List Arg) (items : List (Token × GoString))
    (rest : GoString) (hitems : lineSeparated items = true) :
    parseLoop .none line [] [] (rawLine items ++ rest) =
      parseLoop .none (line ++ items.map (fun item => item.1.arg)) [] [] rest := by
  induction items generalizing line with
  | nil => simp [rawLine]
  | cons item items ih =>
    obtain ⟨tok, sep⟩ := item
    simp only [lineSeparated, List.all_cons, Bool.and_eq_true, Bool.not_eq_true',
      List.isEmpty_eq_false] at hitems
    obtain ⟨⟨⟨htok, hne⟩, hsep⟩, hrest⟩ := hitems
    simp only [Token.wellWritten, Bool.and_eq_true, Bool.not_eq_true',
      List.isEmpty_eq_false] at htok
    have harg : tok.arg ≠ [] := by simpa [Token.arg] using htok.1
    cases sep with
    | nil => exact absurd rfl hne
    | cons c sep =>
      simp only [List.all_cons, Bool.and_eq_true] at hsep
      have hraw : rawLine ((tok, c :: sep) :: items) ++ rest
          = tok.raw ++ (c :: (sep ++ (rawLine items ++ rest))) := by
        simp [rawLine]
      rw [hraw, parseLoop_token _ _ _ (c :: (sep ++ (rawLine items ++ rest))) htok.2 hsep.1,
        List.nil_append,
        parseLoop_none_whitespace _ _ _ _ _ hsep.1, flushSegment_nil,
        flushArgument_of_ne _ _ harg, parseLoop_skip_whitespace _ _ _ hsep.2,
        ih _ (by simpa [lineSeparated] using hrest)]
      simp

/-- `Parse` up to the middle of a token: the tokens before are in the Line, the
fragments so far in the Argument. -/
theorem parse_upto (lead : GoString) (items : List (Token × GoString)) (tok : Token)
    (rest : GoString) (hlead : lead.all isWhitespace = true)
    (hitems : lineSeparated items = true) (htok : fragmentsWellWritten tok = true)
    (hrest : atFragmentEnd rest = true) :
    Parse (lead ++ rawLine items ++ tok.raw ++ rest) =
      parseLoop .none (items.map (fun item => item.1.arg)) tok.arg [] rest := by
  have hshape : lead ++ rawLine items ++ tok.raw ++ rest
      = lead ++ (rawLine items ++ (tok.raw ++ rest)) := by simp
  rw [hshape, Parse, parseLoop_skip_whitespace _ _ _ hlead, parseLoop_separated _ _ _ hitems,
    parseLoop_token_open _ _ _ _ htok hrest]
  simp

/-- At the end of a token: trailing whitespace, then the end of the input. -/
theorem parseLoop_trailing (line : List Arg) (arg : Arg) (trail : GoString)
    (harg : arg ≠ []) (htrail : trail.all isWhitespace = true) :
    parseLoop .none line arg [] trail = line ++ [arg] := by
  cases trail with
  | nil => simp [parseLoop, flushArgument_of_ne _ _ harg]
  | cons c trail =>
    simp only [List.all_cons, Bool.and_eq_true] at htrail
    have := parseLoop_skip_whitespace (line ++ [arg]) trail [] htrail.2
    simp only [List.append_nil] at this
    rw [parseLoop_none_whitespace _ _ _ _ _ htrail.1, flushSegment_nil,
      flushArgument_of_ne _ _ harg, this]
    rfl

theorem getLast?_cons_cons_ne (c c2 : Char) (r : GoString)
    (h : (c :: c2 :: r).getLast? ≠ some '\\') : r.getLast? ≠ some '\\' := by
  cases r with
  | nil => simp
  | cons d r => simpa [List.getLast?_cons_cons] using h

/-- Inside double quotes, up to the closing quote: backslash + double quote
contributes a double quote and does not close, every other character is
kept. -/
theorem parseLoop_double_escaped (n : Nat) (line : List Arg) (arg : Arg) (text t rest : GoString)
    (hn : t.length ≤ n) (ht : closesQuote t = false) (hlast : t.getLast? ≠ some '\\') :
    parseLoop .double line arg text (t ++ '"' :: rest) =
      parseLoop .none line (arg ++ [⟨text ++ unescapeQuotes t, true⟩]) [] rest := by
  induction n generalizing t text with
  | zero =>
    have : t = [] := List.length_eq_zero.mp (Nat.le_zero.mp hn)
    subst this
    cases rest <;> simp [parseLoop, unescapeQuotes]
  | succ n ih =>
    match t, hn, ht, hlast with
    | [], _, _, _ => cases rest <;> simp [parseLoop, unescapeQuotes]
    | [c], _, ht, hlast =>
      have hc : (c == '"') = false := by simpa [closesQuote] using ht
      have hb : (c == '\\') = false := by
        have : c ≠ '\\' := fun h => hlast (by simp [h])
        simpa using this
      have hstep : parseLoop .double line arg text (c :: '"' :: rest) =
          parseLoop .double line arg (text ++ [c]) ('"' :: rest) := by
        simp [parseLoop, hc, hb]
      have := ih (text ++ [c]) [] (Nat.zero_le _) rfl (by simp)
      simp only [List.nil_append, unescapeQuotes, List.append_nil] at this
      simp only [List.cons_append, List.nil_append, unescapeQuotes]
      rw [hstep, this]
    | c :: c2 :: r, hn, ht, hlast =>
      have hlen : r.length ≤ n := by
        simp only [List.length_cons] at hn; omega
      have hlen2 : (c2 :: r).length ≤ n := by
        simp only [List.length_cons] at hn ⊢; omega
      by_cases hesc : (c == '\\' && c2 == '"') = true
      · have hc : (c == '"') = false := by
          simp only [Bool.and_eq_true, beq_iff_eq] at hesc
          rw [hesc.1]; decide
        have hstep : parseLoop .double line arg text (c :: c2 :: (r ++ '"' :: rest)) =
            parseLoop .double line arg (text ++ ['"']) (r ++ '"' :: rest) := by
          simp only [parseLoop, hc, Bool.false_eq_true, if_false, hesc, if_true]
        have hcl : closesQuote r = false := by simpa [closesQuote, hesc] using ht
        have := ih (text ++ ['"']) r hlen hcl (getLast?_cons_cons_ne c c2 r hlast)
        simp only [List.cons_append, unescapeQuotes, hesc, if_true]
        rw [hstep, this]
        simp
      · have hesc2 : (c == '\\' && c2 == '"') = false := by simpa using hesc
        have hcl : (c == '"') = false ∧ closesQuote (c2 :: r) = false := by
          simpa [closesQuote, hesc2] using ht
        have hstep : parseLoop .double line arg text (c :: c2 :: (r ++ '"' :: rest)) =
            parseLoop .double line arg (text ++ [c]) (c2 :: (r ++ '"' :: rest)) := by
          simp only [parseLoop, hcl.1, Bool.false_eq_true, if_false, hesc2]
        have hl2 : (c2 :: r).getLast? ≠ some '\\' := by
          simpa [List.getLast?_cons_cons] using hlast
        have := ih (text ++ [c]) (c2 :: r) hlen2 hcl.2 hl2
        simp only [List.cons_append] at this
        simp only [List.cons_append, unescapeQuotes, hesc2, Bool.false_eq_true, if_false]
        rw [hstep, this]
        simp

/-- Without double quotes there is nothing to unescape. -/
theorem unescapeQuotes_of_noQuote (t : GoString) (ht : t.all (· != '"') = true) :
    unescapeQuotes t = t := by
  induction t with
  | nil => rfl
  | cons c t ih =>
    simp only [List.all_cons, Bool.and_eq_true] at ht
    cases t with
    | nil => rfl
    | cons c2 t =>
      have hc2 : (c2 == '"') = false := by
        have := ht.2
        simp only [List.all_cons, Bool.and_eq_true] at this
        simpa using this.1
      simp only [unescapeQuotes, hc2, Bool.and_false, Bool.false_eq_true, if_false, ih ht.2]

/-! ### Lines of tokens with escapes -/

/-- The scan of one span appends its Segment to the Argument. -/
theorem parseLoop_span (line : List Arg) (arg : Arg) (s : Span) (rest : GoString)
    (hs : s.wellWritten = true) (hrest : s.isUnquoted = true → atFragmentEnd rest = true) :
    parseLoop .none line arg [] (s.raw ++ rest) = parseLoop .none line (arg ++ [s.part]) [] rest := by
  cases s with
  | unquoted t =>
    simp only [Span.wellWritten, Bool.and_eq_true, Bool.not_eq_true',
      List.isEmpty_eq_false] at hs
    rw [Span.raw, parseLoop_unquoted_run _ _ _ _ _ hs.2,
      parseLoop_flush_pending _ _ _ _ (hrest rfl), List.nil_append,
      flushSegment_of_ne _ _ hs.1]
    rfl
  | single t =>
    have hraw : (Span.single t).raw ++ rest = '\'' :: (t ++ '\'' :: rest) := by
      simp [Span.raw]
    rw [hraw, parseLoop_open_single, parseLoop_single_run _ _ _ _ _ hs]
    rfl
  | double inner =>
    simp only [Span.wellWritten, Bool.and_eq_true, Bool.not_eq_true', bne_iff_ne, ne_eq] at hs
    have hraw : (Span.double inner).raw ++ rest = '"' :: (inner ++ '"' :: rest) := by
      simp [Span.raw]
    rw [hraw, parseLoop_open_double,
      parseLoop_double_escaped inner.length _ _ _ _ _ (Nat.le_refl _) hs.1 hs.2]
    rfl

theorem atFragmentEnd_span_quoted (u : Span) (rest : GoString)
    (hu : u.isUnquoted = false) : atFragmentEnd (u.raw ++ rest) = true := by
  cases u with
  | unquoted t => simp [Span.isUnquoted] at hu
  | single t => simp [Span.raw, atFragmentEnd, isQuote]
  | double inner => simp [Span.raw, atFragmentEnd, isQuote]

/-- The scan of a token of spans appends their Segments, in order. -/
theorem parseLoop_spans (line : List Arg) (arg : Arg) (spans : List Span) (rest : GoString)
    (hspans : spansWellWritten spans = true) (hrest : atFragmentEnd rest = true) :
    parseLoop .none line arg [] (spansRaw spans ++ rest)
      = parseLoop .none line (arg ++ spansArg spans) [] rest := by
  induction spans generalizing arg with
  | nil => simp [spansRaw, spansArg]
  | cons s spans ih =>
    cases spans with
    | nil =>
      have hs : s.wellWritten = true := hspans
      have hraw : spansRaw [s] ++ rest = s.raw ++ rest := by simp [spansRaw]
      rw [hraw, parseLoop_span _ _ _ _ hs (fun _ => hrest)]
      rfl
    | cons u spans =>
      simp only [spansWellWritten, Bool.and_eq_true, Bool.not_eq_true',
        Bool.and_eq_false_iff] at hspans
      obtain ⟨⟨hs, hadj⟩, hmore⟩ := hspans
      have hraw : spansRaw (s :: u :: spans) ++ rest
          = s.raw ++ (spansRaw (u :: spans) ++ rest) := by
        simp [spansRaw]
      have hnext : s.isUnquoted = true → atFragmentEnd (spansRaw (u :: spans) ++ rest) = true := by
        intro hsu
        have hu : u.isUnquoted = false := by
          rcases hadj with h | h
          · rw [h] at hsu; cases hsu
          · exact h
        have : spansRaw (u :: spans) ++ rest = u.raw ++ (spansRaw spans ++ rest) := by
          simp [spansRaw]
        rw [this]
        exact atFragmentEnd_span_quoted u _ hu
      rw [hraw, parseLoop_span _ _ _ _ hs hnext, ih _ hmore]
      simp [spansArg]

/-- The scan of tokens of spans, each followed by whitespace, with input left. -/
theorem parseLoop_words (line : List Arg) (items : List (List Span × GoString))
    (rest : GoString) (hitems : wordsSeparated items = true) :
    parseLoop .none line [] [] (wordsRaw items ++ rest) =
      parseLoop .none (line ++ items.map (fun item => spansArg item.1)) [] [] rest := by
  induction items generalizing line with
  | nil => simp [wordsRaw]
  | cons item items ih =>
    obtain ⟨spans, sep⟩ := item
    simp only [wordsSeparated, List.all_cons, Bool.and_eq_true, Bool.not_eq_true',
      List.isEmpty_eq_false] at hitems
    obtain ⟨⟨⟨⟨hne, hspans⟩, hsepne⟩, hsep⟩, hrest⟩ := hitems
    have harg : spansArg spans ≠ [] := by simpa [spansArg] using hne
    cases sep with
    | nil => exact absurd rfl hsepne
    | cons c sep =>
      simp only [List.all_cons, Bool.and_eq_true] at hsep
      have hraw : wordsRaw ((spans, c :: sep) :: items) ++ rest
          = spansRaw spans ++ (c :: (sep ++ (wordsRaw items ++ rest))) := by
        simp [wordsRaw]
      have hend : atFragmentEnd (c :: (sep ++ (wordsRaw items ++ rest))) = true := by
        simp [atFragmentEnd, hsep.1]
      rw [hraw, parseLoop_spans _ _ _ _ hspans hend, List.nil_append,
        parseLoop_none_whitespace _ _ _ _ _ hsep.1, flushSegment_nil,
        flushArgument_of_ne _ _ harg, parseLoop_skip_whitespace _ _ _ hsep.2,
        ih _ (by simpa [wordsSeparated] using hrest)]
      simp

/-- `Parse` up to the middle of a token of spans: the tokens before are in the
Line, the spans so far in the Argument. -/
theorem parse_words_upto (lead : GoString) (items : List (List Span × GoString))
    (spans : List Span) (rest : GoString) (hlead : lead.all isWhitespace = true)
    (hitems : wordsSeparated items = true) (hspans : spansWellWritten spans = true)
    (hrest : atFragmentEnd rest = true) :
    Parse (lead ++ wordsRaw items ++ spansRaw spans ++ rest) =
      parseLoop .none (items.map (fun item => spansArg item.1)) (spansArg spans) [] rest := by
  have hshape : lead ++ wordsRaw items ++ spansRaw spans ++ rest
      = lead ++ (wordsRaw items ++ (spansRaw spans ++ rest)) := by simp
  rw [hshape, Parse, parseLoop_skip_whitespace _ _ _ hlead, parseLoop_words _ _ _ hitems,
    parseLoop_spans _ _ _ _ hspans hrest]
  simp

/-- An unclosed double quote takes the rest of the input, backslash + double
quote being read as a double quote. -/
theorem parseLoop_double_open_escaped (n : Nat) (line : List Arg) (arg : Arg)
    (text t : GoString) (hn : t.length ≤ n) (ht : closesQuote t = false) :
    parseLoop .double line arg text t = line ++ [arg ++ [⟨text ++ unescapeQuotes t, true⟩]] := by
  induction n generalizing t text with
  | zero =>
    have : t = [] := List.length_eq_zero.mp (Nat.le_zero.mp hn)
    subst this
    simp [parseLoop, unescapeQuotes]
  | succ n ih =>
    match t, hn, ht with
    | [], _, _ => simp [parseLoop, unescapeQuotes]
    | [c], _, ht =>
      have hc : (c == '"') = false := by simpa [closesQuote] using ht
      simp [parseLoop, hc, unescapeQuotes]
    | c :: c2 :: r, hn, ht =>
      have hlen : r.length ≤ n := by
        simp only [List.length_cons] at hn; omega
      have hlen2 : (c2 :: r).length ≤ n := by
        simp only [List.length_cons] at hn ⊢; omega
      by_cases hesc : (c == '\\' && c2 == '"') = true
      · have hc : (c == '"') = false := by
          simp only [Bool.and_eq_true, beq_iff_eq] at hesc
          rw [hesc.1]; decide
        have hstep : parseLoop .double line arg text (c :: c2 :: r) =
            parseLoop .double line arg (text ++ ['"']) r := by
          simp only [parseLoop, hc, Bool.false_eq_true, if_false, hesc, if_true]
        have hcl : closesQuote r = false := by simpa [closesQuote, hesc] using ht
        rw [hstep, ih (text ++ ['"']) r hlen hcl]
        simp [unescapeQuotes, hesc]
      · have hesc2 : (c == '\\' && c2 == '"') = false := by simpa using hesc
        have hcl : (c == '"') = false ∧ closesQuote (c2 :: r) = false := by
          simpa [closesQuote, hesc2] using ht
        have hstep : parseLoop .double line arg text (c :: c2 :: r) =
            parseLoop .double line arg (text ++ [c]) (c2 :: r) := by
          simp only [parseLoop, hcl.1, Bool.false_eq_true, if_false, hesc2]
        rw [hstep, ih (text ++ [c]) (c2 :: r) hlen2 hcl.2]
        simp [unescapeQuotes, hesc2]

/-- A run without double quotes holds no closing quote. -/
theorem closesQuote_of_noQuote (t : GoString) (ht : t.all (· != '"') = true) :
    closesQuote t = false := by
  induction t with
  | nil => rfl
  | cons c t ih =>
    simp only [List.all_cons, Bool.and_eq_true] at ht
    have hc : (c == '"') = false := by simpa using ht.1
    cases t with
    | nil => simpa [closesQuote] using hc
    | cons c2 t =>
      have hc2 : (c2 == '"') = false := by
        have := ht.2
        simp only [List.all_cons, Bool.and_eq_true] at this
        simpa using this.1
      simp only [closesQuote, hc2, Bool.and_false, Bool.false_eq_true, if_false, hc,
        Bool.false_or]
      exact ih ht.2

/-- C11, as stated, fails at `go "a \" b`: the double quote is opened and never
closed (the only later double quote is escaped), yet the final Segment is
`a " b`, not all the characters after the quote, `a \" b`. -/
theorem parse_unterminated_quote_counterexample :
    closesQuote "a \\\" b".toList = false ∧
    Parse "go \"a \\\" b".toList
      = [[⟨"go".toList, true⟩], [⟨"a \" b".toList, true⟩]] ∧
    Parse "go \"a \\\" b".toList
      ≠ [[⟨"go".toList, true⟩], [⟨"a \\\" b".toList, true⟩]] := by
  decide

/-- C11, amended. An unterminated quote is not an error: after whitespace-separated
tokens and the spans of the current token, a single quote that is never
closed makes all the characters after it, whitespace included, the content
of one final Segment with `expandable=false`; a double quote that is never
closed makes them the content of one final Segment with `expandable=true`,
each backslash + double quote among them being read as one double quote, so
that the content is all the characters after the quote when no double quote
occurs among them.  The Segment ends the current Argument, the last of the
Line. -/
theorem parse_unterminated_quote (lead : GoString) (items : List (List Span × GoString))
    (spans : List Span) (t : GoString) (hlead : lead.all isWhitespace = true)
    (hitems : wordsSeparated items = true) (hspans : spansWellWritten spans = true) :
    (t.all (· != '\'') = true →
      Parse (lead ++ wordsRaw items ++ spansRaw spans ++ '\'' :: t)
        = items.map (fun item => spansArg item.1) ++ [spansArg spans ++ [⟨t, false⟩]]) ∧
    (closesQuote t = false →
      Parse (lead ++ wordsRaw items ++ spansRaw spans ++ '"' :: t)
        = items.map (fun item => spansArg item.1)
          ++ [spansArg spans ++ [⟨unescapeQuotes t, true⟩]]) ∧
    (t.all (· != '"') = true →
      Parse (lead ++ wordsRaw items ++ spansRaw spans ++ '"' :: t)
        = items.map (fun item => spansArg item.1) ++ [spansArg spans ++ [⟨t, true⟩]]) ∧
    (∀ osenv : GoMap,
      ((New.Env (some ENV)).Line "go hi 'this is an unclosed quote arg".toList).expandArgs osenv
        = .ok ["go".toList, "hi".toList, "this is an unclosed quote arg".toList]) ∧
    (∀ osenv : GoMap,
      ((New.Env (some ENV)).Line "go hi \"this is an unclosed quote arg".toList).expandArgs osenv
        = .ok ["go".toList, "hi".toList, "this is an unclosed quote arg".toList]) := by
  have hdouble : closesQuote t = false →
      Parse (lead ++ wordsRaw items ++ spansRaw spans ++ '"' :: t)
        = items.map (fun item => spansArg item.1)
          ++ [spansArg spans ++ [⟨unescapeQuotes t, true⟩]] := by
    intro ht
    rw [parse_words_upto lead items spans _ hlead hitems hspans
        (by simp [atFragmentEnd, isQuote]),
      parseLoop_open_double, parseLoop_double_open_escaped t.length _ _ _ _ (Nat.le_refl _) ht]
    rfl
  refine ⟨?_, hdouble, ?_, fun _ => rfl, fun _ => rfl⟩
  · intro ht
    rw [parse_words_upto lead items spans _ hlead hitems hspans
        (by simp [atFragmentEnd, isQuote]),
      parseLoop_open_single, parseLoop_single_open _ _ _ _ ht]
    rfl
  · intro ht
    rw [hdouble (closesQuote_of_noQuote t ht), unescapeQuotes_of_noQuote t ht]

/-- C11, amended, at a line of three tokens: `go`, a closed double-quoted
`x y`, and a token made of the single-quoted span `z` followed by an
unclosed double quote with an escaped quote inside. -/
theorem parse_unterminated_quote_witness :
    Parse ([] ++ wordsRaw [([.unquoted "go".toList], " ".toList),
          ([.double "x y".toList], "  ".toList)]
        ++ spansRaw [.single "z".toList] ++ '"' :: "a \\\" b".toList)
      = [[⟨"go".toList, true⟩], [⟨"x y".toList, true⟩],
         [⟨"z".toList, false⟩, ⟨"a \" b".toList, true⟩]] :=
  (parse_unterminated_quote []
    [([.unquoted "go".toList], " ".toList), ([.double "x y".toList], "  ".toList)]
    [.single "z".toList] "a \\\" b".toList (by decide) (by decide) (by decide)).2.1 (by decide)

/-- C12. Inside a double-quoted segment backslash + double quote contributes
one double quote and does not close the quote, and a backslash before any
other character is kept; inside a single-quoted segment a backslash is an
ordinary character and the next single quote closes the segment.  This holds
in every state of the scan and whatever follows the closing quote; hence, in
any line of whitespace-separated tokens made of such segments, every token
yields the Argument of its spans, also when the line ends in an unclosed
single quote. -/
theorem parse_escapes (lead : GoString) (items : List (List Span × GoString))
    (spans : List Span) (t trail : GoString) (hlead : lead.all isWhitespace = true)
    (hitems : wordsSeparated items = true) (hspans : spansWellWritten spans = true)
    (htrail : trail.all isWhitespace = true) :
    (∀ (line : List Arg) (arg : Arg) (text inner rest : GoString),
      closesQuote inner = false → inner.getLast? ≠ some '\\' →
      parseLoop .double line arg text (inner ++ '"' :: rest)
        = parseLoop .none line (arg ++ [⟨text ++ unescapeQuotes inner, true⟩]) [] rest) ∧
    (∀ (line : List Arg) (arg : Arg) (text inner rest : GoString),
      inner.all (· != '\'') = true →
      parseLoop .single line arg text (inner ++ '\'' :: rest)
        = parseLoop .none line (arg ++ [⟨text ++ inner, false⟩]) [] rest) ∧
    (spans ≠ [] →
      Parse (lead ++ wordsRaw items ++ spansRaw spans ++ trail)
        = items.map (fun item => spansArg item.1) ++ [spansArg spans]) ∧
    (t.all (· != '\'') = true →
      Parse (lead ++ wordsRaw items ++ spansRaw spans ++ '\'' :: t)
        = items.map (fun item => spansArg item.1) ++ [spansArg spans ++ [⟨t, false⟩]]) ∧
    (∀ r : GoString, unescapeQuotes ('\\' :: '"' :: r) = '"' :: unescapeQuotes r) ∧
    (∀ (c : Char) (r : GoString), c ≠ '"' →
      unescapeQuotes ('\\' :: c :: r) = '\\' :: unescapeQuotes (c :: r)) ∧
    (∀ (c : Char) (r : GoString), c ≠ '\\' →
      unescapeQuotes (c :: r) = c :: unescapeQuotes r) ∧
    (∀ osenv : GoMap,
      ((New.Env (some ENV)).Line "go \"hi \\\" there\"".toList).expandArgs osenv
        = .ok ["go".toList, "hi \" there".toList]) ∧
    (∀ osenv : GoMap,
      ((New.Env (some ENV)).Line "go 'hi \\' the ' other".toList).expandArgs osenv
        = .ok ["go".toList, "hi \\".toList, "the".toList, " other".toList]) := by
  refine ⟨?_, ?_, ?_, ?_, ?_, ?_, ?_, fun _ => rfl, fun _ => rfl⟩
  · intro line arg text inner rest hcl hlast
    exact parseLoop_double_escaped inner.length line arg text inner rest (Nat.le_refl _) hcl hlast
  · intro line arg text inner rest hin
    exact parseLoop_single_run line arg text inner rest hin
  · intro hne
    have harg : spansArg spans ≠ [] := by simpa [spansArg] using hne
    have hend : atFragmentEnd trail = true := by
      cases trail with
      | nil => rfl
      | cons c trail =>
        simp only [List.all_cons, Bool.and_eq_true] at htrail
        simp [atFragmentEnd, htrail.1]
    rw [parse_words_upto lead items spans _ hlead hitems hspans hend,
      parseLoop_trailing _ _ _ harg htrail]
  · intro ht
    rw [parse_words_upto lead items spans _ hlead hitems hspans
        (by simp [atFragmentEnd, isQuote]),
      parseLoop_open_single, parseLoop_single_open _ _ _ _ ht]
    rfl
  · intro r
    simp [unescapeQuotes]
  · intro c r hc
    have : (c == '"') = false := by simpa using hc
    simp [unescapeQuotes, this]
  · intro c r hc
    have hb : (c == '\\') = false := by simpa using hc
    cases r with
    | nil => rfl
    | cons d r => simp [unescapeQuotes, hb]

/-- C12, at `go "a\"b" c`, an escaped quote in a token followed by another
token, and at the claim's `go 'hi \' the ' other`, where the backslash does
not keep the second single quote from closing. -/
theorem parse_escapes_witness :
    Parse ([] ++ wordsRaw [([.unquoted "go".toList], " ".toList),
          ([.double "a\\\"b".toList], " ".toList)]
        ++ spansRaw [.unquoted "c".toList] ++ [])
      = [[⟨"go".toList, true⟩], [⟨"a\"b".toList, true⟩], [⟨"c".toList, true⟩]] ∧
    Parse ([] ++ wordsRaw [([.unquoted "go".toList], " ".toList),
          ([.single "hi \\".toList], " ".toList), ([.unquoted "the".toList], " ".toList)]
        ++ spansRaw [] ++ '\'' :: " other".toList)
      = [[⟨"go".toList, true⟩], [⟨"hi \\".toList, false⟩], [⟨"the".toList, true⟩],
         [⟨" other".toList, false⟩]] :=
  ⟨(parse_escapes []
      [([.unquoted "go".toList], " ".toList), ([.double "a\\\"b".toList], " ".toList)]
      [.unquoted "c".toList] [] [] (by decide) (by decide) (by decide) (by decide)).2.2.1
      (by decide),
   (parse_escapes []
      [([.unquoted "go".toList], " ".toList), ([.single "hi \\".toList], " ".toList),
        ([.unquoted "the".toList], " ".toList)]
      [] " other".toList [] (by decide) (by decide) (by decide) (by decide)).2.2.2.1
      (by decide)⟩

end Hawtgo
